import Mathlib

/-!
Verification of the photo page-ordering program (`main.py`).

The program reads a directed constraint graph over photo identifiers,
checks it for cycles with a Kahn-style root-peeling loop, and, if the
graph is acyclic, computes the minimum number of pages needed to place
all photos, at most `m` per page, with every edge `u → v` forcing `u`
onto a strictly earlier page than `v`.

A Python `dict` mapping a photo identifier to its successor list is
embedded as an association list `List (Nat × List Nat)`; `del g[v]`
becomes key filtering, and `graph.copy()` is value copying (adjacency
lists are never mutated by the program, so a shallow copy behaves like
a value).  The recursion of `min_page_feasible` is embedded with an
explicit fuel parameter: one unit of fuel is consumed per nested call,
and `none` means the call chain is deeper than the fuel allows (on a
graph with a cycle the Python function does not terminate).
-/

namespace PhotoOrdering

/-- A Python dict `{photo: successor list}`, as an association list. -/
abbrev Graph := List (Nat × List Nat)

/-- `graph.keys()`: the photo identifiers present in the dict. -/
def keys (g : Graph) : List Nat := g.map Prod.fst

/-- All members of all adjacency lists (targets of surviving edges). -/
def targets (g : Graph) : List Nat := (g.map Prod.snd).flatten

/-- `roots(graph)`: vertices with no ingoing edge, from `main.py`:
start from the key set and remove every identifier appearing in some
adjacency list (identifiers that are not keys are never in the result). -/
def roots (g : Graph) : List Nat :=
  (keys g).filter (fun v => v ∉ targets g)

/-- `graph[v]` for a key `v`: the adjacency list of the first entry
with key `v` (Python dict keys are unique). -/
def succsOf (g : Graph) (v : Nat) : List Nat :=
  ((g.find? (fun p => p.1 = v)).map Prod.snd).getD []

/-- `isolated_vertices(graph)` from `main.py`: roots with an empty
adjacency list. -/
def isolated_vertices (g : Graph) : List Nat :=
  (roots g).filter (fun v => succsOf g v = [])

/-- Deleting a set of keys from the dict (`for v in vs: del g[v]`). -/
def eraseAll (g : Graph) (vs : List Nat) : Graph :=
  g.filter (fun p => p.1 ∉ vs)

/-- The edge relation of the graph: some entry has source `u` and
lists `v` as a successor. -/
def Edge (g : Graph) (u v : Nat) : Prop :=
  ∃ p, p ∈ g ∧ p.1 = u ∧ v ∈ p.2

/-- A directed cycle: a nonempty edge path from some vertex to itself. -/
def HasCycle (g : Graph) : Prop :=
  ∃ v, Relation.TransGen (Edge g) v v

/-- Acyclicity in the mathematical sense (the spec's notion). -/
def Acyclic (g : Graph) : Prop := ¬ HasCycle g

/-- Every edge target is itself a photo of the graph (true of every
well-formed input graph). -/
def Closed (g : Graph) : Prop := ∀ v ∈ targets g, v ∈ keys g

/-- `math.ceil(n / m)` for positive integers, exactly. -/
def ceilDiv (n m : Nat) : Nat := (n + m - 1) / m

/-- The distinct constraint edges of the graph, as source/target pairs. -/
def edgeList (g : Graph) : List (Nat × Nat) :=
  (g.map (fun p => p.2.map (fun v => (p.1, v)))).flatten

/-- `|E|`: the number of distinct edges. -/
def numEdges (g : Graph) : Nat := (edgeList g).dedup.length

theorem roots_subset_keys (g : Graph) : ∀ v ∈ roots g, v ∈ keys g := by
  intro v hv
  exact (List.mem_filter.1 hv).1

theorem length_eraseAll_lt (g : Graph) (vs : List Nat) (v : Nat)
    (hv : v ∈ vs) (hk : v ∈ keys g) : (eraseAll g vs).length < g.length := by
  apply List.length_filter_lt_length_iff_exists.2
  rcases List.mem_map.1 hk with ⟨p, hp, hpv⟩
  exact ⟨p, hp, by simp [hpv, hv]⟩

/-- `is_acyclic(graph)` from `main.py`: repeatedly delete all roots of
a working copy; report a cycle when the working dict is nonempty but
has no roots.  (Deleting the roots one by one, as the Python loop
does, yields the same dict as deleting them all at once.) -/
def is_acyclic (g : Graph) : Bool :=
  if g.length = 0 then true
  else if h : (roots g).length = 0 then false
  else is_acyclic (eraseAll g (roots g))
termination_by g.length
decreasing_by
  rcases List.exists_mem_of_length_pos (Nat.pos_of_ne_zero h) with ⟨v, hv⟩
  exact length_eraseAll_lt g (roots g) v hv (roots_subset_keys g v hv)

/-- `min_page_feasible(graph, max_by_page)` from `main.py`, with fuel:
`none` means the recursion is deeper than `fuel` levels.  The branch
structure follows the source exactly: empty graph, `m == 1`, removal
of isolated vertices (returning `max(recursive result, ceil(n/m))`),
placing all roots when they fit on one page, and otherwise a minimum
over all `C(ready, m)` combinations, starting from the bound
`result = n_photos`. -/
def min_page_feasibleF : Nat → Graph → Nat → Option Nat
  | 0, _, _ => none
  | fuel+1, g, m =>
    let n := g.length
    if n = 0 then some 0
    else if m = 1 then some n
    else if (isolated_vertices g).isEmpty then
      let ready := roots g
      if ready.length ≤ m then
        (min_page_feasibleF fuel (eraseAll g ready) m).map (fun r => 1 + r)
      else
        (List.sublistsLen m ready).foldl
          (fun acc page =>
            match acc, min_page_feasibleF fuel (eraseAll g page) m with
            | some a, some r => some (Min.min a (1 + r))
            | _, _ => none)
          (some n)
    else
      match min_page_feasibleF fuel (eraseAll g (isolated_vertices g)) m with
      | some r => some (Max.max r (ceilDiv n m))
      | none => none

/-- One combination step of the case-3 fold of `min_page_feasible`. -/
def combStep (fuel m : Nat) (g : Graph) (acc : Option Nat) (page : List Nat) : Option Nat :=
  match acc, min_page_feasibleF fuel (eraseAll g page) m with
  | some a, some r => some (Min.min a (1 + r))
  | _, _ => none

/-- `min_page_feasible` run with fuel `|V| + 1`, i.e. allowing recursion
depth `|V|`; this is always enough on acyclic graphs. -/
def min_page_feasible (g : Graph) (m : Nat) : Option Nat :=
  min_page_feasibleF (g.length + 1) g m

/-- Instrumentation for the pruning claim: does the call tree of
`min_page_feasible` ever reach the case-3 combinatorial branch?
Mirrors the branch structure of `min_page_feasibleF`; once case 3 is
reached the answer is `true` (no need to look deeper). -/
def comb_branch_reachedF : Nat → Graph → Nat → Option Bool
  | 0, _, _ => none
  | fuel+1, g, m =>
    if g.length = 0 then some false
    else if m = 1 then some false
    else if (isolated_vertices g).isEmpty then
      if (roots g).length ≤ m then
        comb_branch_reachedF fuel (eraseAll g (roots g)) m
      else some true
    else comb_branch_reachedF fuel (eraseAll g (isolated_vertices g)) m

/-- The graph built by `main` from the first-line count `n` and the
edge lines: `{i: [] for i in range(1, n+1)}` then
`graph[u].append(v)` per line. -/
def buildGraph (n : Nat) (edges : List (Nat × Nat)) : Graph :=
  edges.foldl
    (fun g e => g.map (fun p => if p.1 = e.1 then (p.1, p.2 ++ [e.2]) else p))
    ((List.range n).map (fun i => (i + 1, ([] : List Nat))))

/-- What `main` does after parsing: raise on `m <= 0`, print the page
count, or print the literal text `Impossible`.  `diverge` marks the
case where the solver's recursion exceeds depth `|V|` (it never does
on the guarded, acyclic path, as proved below). -/
inductive MainResult where
  | configError (badM : Int)
  | num (r : Nat)
  | impossible
  | diverge
deriving DecidableEq

/-- The post-parsing behaviour of `main(…)` on first-line values
`n`, `m` and the parsed edge lines. -/
def main_run (n : Nat) (m : Int) (edges : List (Nat × Nat)) : MainResult :=
  if m ≤ 0 then .configError m
  else
    let g := buildGraph n edges
    if is_acyclic g then
      match min_page_feasible g m.toNat with
      | some r => .num r
      | none => .diverge
    else .impossible

/-- Two-dict state for the frame property of `is_acyclic`: the caller's
dict and the working copy.  The Python body only ever executes
`del g[v]` on the working copy `g = graph.copy()`, and adjacency lists
are read, never written. -/
structure DictState where
  arg : Graph
  work : Graph

/-- The `while` loop of `is_acyclic`, with every mutation routed
through the state: deletions touch only the `work` dict. -/
def is_acyclic_loop (s : DictState) : Bool × DictState :=
  if s.work.length = 0 then (true, s)
  else if h : (roots s.work).length = 0 then (false, s)
  else is_acyclic_loop ⟨s.arg, eraseAll s.work (roots s.work)⟩
termination_by s.work.length
decreasing_by
  rcases List.exists_mem_of_length_pos (Nat.pos_of_ne_zero h) with ⟨v, hv⟩
  exact length_eraseAll_lt s.work (roots s.work) v hv (roots_subset_keys s.work v hv)

/-- `is_acyclic(graph)` with the caller's dict tracked through the
call: `g = graph.copy()` duplicates the dict, then the loop runs on
the copy. -/
def is_acyclic_st (graph : Graph) : Bool × DictState :=
  is_acyclic_loop ⟨graph, graph⟩

/-! ### Basic facts about the graph model -/

theorem length_keys (g : Graph) : (keys g).length = g.length :=
  List.length_map g Prod.fst

theorem mem_keys_iff {g : Graph} {v : Nat} :
    v ∈ keys g ↔ ∃ p ∈ g, p.1 = v := by
  simp [keys]

theorem mem_targets_iff {g : Graph} {v : Nat} :
    v ∈ targets g ↔ ∃ p ∈ g, v ∈ p.2 := by
  simp only [targets, List.mem_flatten, List.mem_map]
  constructor
  · intro ⟨l, ⟨p, hp, hl⟩, hv⟩
    exact ⟨p, hp, by rwa [hl]⟩
  · intro ⟨p, hp, hv⟩
    exact ⟨p.2, ⟨p, hp, rfl⟩, hv⟩

theorem edge_target_mem {g : Graph} {u v : Nat} (h : Edge g u v) :
    v ∈ targets g := by
  rcases h with ⟨p, hp, _, hv⟩
  exact mem_targets_iff.2 ⟨p, hp, hv⟩

theorem edge_source_mem {g : Graph} {u v : Nat} (h : Edge g u v) :
    u ∈ keys g := by
  rcases h with ⟨p, hp, hu, _⟩
  exact mem_keys_iff.2 ⟨p, hp, hu⟩

theorem mem_targets_iff_edge {g : Graph} {v : Nat} :
    v ∈ targets g ↔ ∃ u, Edge g u v := by
  constructor
  · intro h
    rcases mem_targets_iff.1 h with ⟨p, hp, hv⟩
    exact ⟨p.1, p, hp, rfl, hv⟩
  · intro ⟨u, h⟩
    exact edge_target_mem h

theorem mem_roots_iff {g : Graph} {v : Nat} :
    v ∈ roots g ↔ v ∈ keys g ∧ ¬ ∃ u, Edge g u v := by
  simp [roots, List.mem_filter, mem_targets_iff_edge]

theorem roots_nodup {g : Graph} (h : (keys g).Nodup) : (roots g).Nodup :=
  h.filter _

theorem mem_isolated_iff {g : Graph} {v : Nat} :
    v ∈ isolated_vertices g ↔ v ∈ roots g ∧ succsOf g v = [] := by
  simp [isolated_vertices, List.mem_filter]

theorem isolated_subset_roots (g : Graph) :
    ∀ v ∈ isolated_vertices g, v ∈ roots g := fun _ hv =>
  (mem_isolated_iff.1 hv).1

theorem roots_eq_nil_iff {g : Graph} :
    roots g = [] ↔ ∀ v ∈ keys g, v ∈ targets g := by
  simp [roots, List.filter_eq_nil_iff]

/-- With unique keys (always true of a Python dict), the adjacency list
looked up for an entry's key is that entry's list. -/
theorem succsOf_eq_of_mem {g : Graph} {p : Nat × List Nat}
    (hnd : (keys g).Nodup) (hp : p ∈ g) : succsOf g p.1 = p.2 := by
  induction g with
  | nil => exact absurd hp (List.not_mem_nil p)
  | cons q tl ih =>
    rcases List.mem_cons.1 hp with hp | hp
    · subst hp
      unfold succsOf
      simp [List.find?_cons]
    · have hndtl : (keys tl).Nodup := by
        simpa [keys] using (List.nodup_cons.1 (by simpa [keys] using hnd)).2
      have hne : q.1 ≠ p.1 := by
        intro heq
        have : p.1 ∈ keys tl := mem_keys_iff.2 ⟨p, hp, rfl⟩
        have hq : q.1 ∉ keys tl := (List.nodup_cons.1 (by simpa [keys] using hnd)).1
        rw [heq] at hq
        exact hq this
      unfold succsOf
      rw [List.find?_cons]
      simp only [hne, decide_eq_true_eq, if_false]
      have := ih hndtl hp
      unfold succsOf at this
      simpa [hne] using this

/-! ### Facts about `eraseAll` -/

theorem keys_eraseAll (g : Graph) (vs : List Nat) :
    keys (eraseAll g vs) = (keys g).filter (fun v => v ∉ vs) := by
  simp [keys, eraseAll, List.filter_map]
  rfl

theorem mem_keys_eraseAll {g : Graph} {vs : List Nat} {v : Nat} :
    v ∈ keys (eraseAll g vs) ↔ v ∈ keys g ∧ v ∉ vs := by
  simp [keys_eraseAll, List.mem_filter]

theorem nodup_keys_eraseAll {g : Graph} (vs : List Nat)
    (h : (keys g).Nodup) : (keys (eraseAll g vs)).Nodup := by
  rw [keys_eraseAll]
  exact h.filter _

theorem edge_eraseAll_iff {g : Graph} {vs : List Nat} {u v : Nat} :
    Edge (eraseAll g vs) u v ↔ Edge g u v ∧ u ∉ vs := by
  constructor
  · intro ⟨p, hp, hu, hv⟩
    rcases List.mem_filter.1 hp with ⟨hpg, hnot⟩
    refine ⟨⟨p, hpg, hu, hv⟩, ?_⟩
    simpa [hu] using hnot
  · intro ⟨⟨p, hp, hu, hv⟩, hnot⟩
    exact ⟨p, List.mem_filter.2 ⟨hp, by simpa [hu] using hnot⟩, hu, hv⟩

theorem acyclic_eraseAll {g : Graph} (vs : List Nat) (h : Acyclic g) :
    Acyclic (eraseAll g vs) := by
  intro ⟨v, hv⟩
  exact h ⟨v, hv.mono (fun a b hab => (edge_eraseAll_iff.1 hab).1)⟩

theorem eraseAll_congr {g : Graph} {vs vs' : List Nat}
    (h : ∀ x, x ∈ vs ↔ x ∈ vs') : eraseAll g vs = eraseAll g vs' := by
  apply List.filter_congr
  intro p _
  simp [h p.1]

theorem targets_eraseAll_subset (g : Graph) (vs : List Nat) :
    ∀ v ∈ targets (eraseAll g vs), v ∈ targets g := by
  intro v hv
  rcases mem_targets_iff.1 hv with ⟨p, hp, hvp⟩
  exact mem_targets_iff.2 ⟨p, List.mem_of_mem_filter hp, hvp⟩

/-- Splitting the key set of a graph along a nodup subset `S` of its
keys: up to permutation, the keys are `S` plus the keys after deleting
`S`. -/
theorem perm_keys_eraseAll {g : Graph} {S : List Nat}
    (hnd : (keys g).Nodup) (hS : S.Nodup) (hsub : ∀ v ∈ S, v ∈ keys g) :
    List.Perm (keys g) (S ++ keys (eraseAll g S)) := by
  rw [keys_eraseAll]
  have hsplit : List.Perm
      ((keys g).filter (fun v => decide (v ∈ S)) ++ (keys g).filter (fun v => decide (v ∉ S)))
      (keys g) := by
    have heq : (keys g).filter (fun x => !(decide (x ∈ S)))
        = (keys g).filter (fun v => decide (v ∉ S)) := by
      apply List.filter_congr
      intro x _
      by_cases hx : x ∈ S <;> simp [hx]
    have := List.filter_append_perm (fun v => decide (v ∈ S)) (keys g)
    rwa [heq] at this
  have h2 : List.Perm ((keys g).filter (fun v => decide (v ∈ S))) S := by
    apply List.perm_of_nodup_nodup_toFinset_eq (hnd.filter _) hS
    ext x
    simp only [List.mem_toFinset, List.mem_filter, decide_eq_true_eq]
    exact ⟨fun h => h.2, fun h => ⟨hsub x h, h⟩⟩
  exact (hsplit.symm).trans (List.Perm.append h2 (List.Perm.refl _))

/-! ### Arithmetic facts about `ceilDiv` -/

theorem ceilDiv_le_iff {n m k : Nat} (hm : 0 < m) :
    ceilDiv n m ≤ k ↔ n ≤ k * m := by
  unfold ceilDiv
  rw [Nat.div_le_iff_le_mul_add_pred hm]
  rw [Nat.mul_comm]
  omega

theorem le_ceilDiv_mul {n m : Nat} (hm : 0 < m) : n ≤ ceilDiv n m * m :=
  (ceilDiv_le_iff hm).1 (Nat.le_refl _)

theorem ceilDiv_mono {a b m : Nat} (h : a ≤ b) : ceilDiv a m ≤ ceilDiv b m :=
  Nat.div_le_div_right (by omega)

theorem ceilDiv_one (n : Nat) : ceilDiv n 1 = n := by
  simp [ceilDiv]

theorem ceilDiv_sub_self {n m : Nat} (hm : 0 < m) (hnm : m ≤ n) :
    ceilDiv n m = 1 + ceilDiv (n - m) m := by
  unfold ceilDiv
  have h1 : n + m - 1 = (n - 1) + m := by omega
  have h2 : n - m + m - 1 = n - 1 := by omega
  rw [h1, h2, Nat.add_div_right _ hm]
  omega

theorem ceilDiv_pos {n m : Nat} (hm : 0 < m) (hn : 0 < n) : 0 < ceilDiv n m := by
  by_contra hc
  have : ceilDiv n m ≤ 0 := by omega
  have := (ceilDiv_le_iff hm).1 this
  omega

/-! ### Placements (schedules) of a graph onto pages -/

/-- The page (0-based) on which `pages` places `v`: the first page
containing it (`pages.length` when `v` is on no page). -/
def pageOf (pages : List (List Nat)) (v : Nat) : Nat :=
  pages.findIdx (fun p => v ∈ p)

/-- A valid placement of the photos of `g` on `pages`, in the sense of
the specification, with the precedence constraint imposed for every
edge between two photos of the graph: every photo is on exactly one
page, no page exceeds `m` photos, and each surviving constraint edge
crosses strictly forward.  (For a closed graph this is exactly
`Placement` below.) -/
def Sched (g : Graph) (m : Nat) (pages : List (List Nat)) : Prop :=
  List.Perm pages.flatten (keys g) ∧
  (∀ p ∈ pages, p.length ≤ m) ∧
  ∀ u v, Edge g u v → v ∈ keys g → pageOf pages u < pageOf pages v

/-- A valid placement in the claim's sense: each photo on exactly one
page, at most `m` photos per page, and, for every edge `u → v`, `u` on
a strictly earlier page than `v`. -/
def Placement (g : Graph) (m : Nat) (pages : List (List Nat)) : Prop :=
  List.Perm pages.flatten (keys g) ∧
  (∀ p ∈ pages, p.length ≤ m) ∧
  ∀ u v, Edge g u v → pageOf pages u < pageOf pages v

theorem placement_iff_sched {g : Graph} {m : Nat} {pages : List (List Nat)}
    (hc : Closed g) : Placement g m pages ↔ Sched g m pages := by
  unfold Placement Sched
  refine and_congr_right fun _ => and_congr_right fun _ => ?_
  constructor
  · intro h u v he _
    exact h u v he
  · intro h u v he
    exact h u v he (hc v (edge_target_mem he))

/-- `r` is the least page count over all valid schedules of `g`. -/
def SchedOpt (g : Graph) (m r : Nat) : Prop :=
  (∃ pages, Sched g m pages ∧ pages.length = r) ∧
  ∀ pages, Sched g m pages → r ≤ pages.length

/-! ### Facts about `pageOf` -/

theorem pageOf_cons {p : List Nat} {pages : List (List Nat)} {v : Nat} :
    pageOf (p :: pages) v = if v ∈ p then 0 else pageOf pages v + 1 := by
  unfold pageOf
  rw [List.findIdx_cons]
  by_cases hv : v ∈ p <;> simp [hv]

theorem pageOf_mem_lt {pages : List (List Nat)} {v : Nat}
    (h : v ∈ pages.flatten) : pageOf pages v < pages.length := by
  rcases List.mem_flatten.1 h with ⟨p, hp, hv⟩
  exact List.findIdx_lt_length_of_exists ⟨p, hp, by simpa using hv⟩

theorem pageOf_not_mem {pages : List (List Nat)} {v : Nat}
    (h : v ∉ pages.flatten) : pageOf pages v = pages.length := by
  apply List.findIdx_eq_length.2
  intro p hp
  simp only [decide_eq_false_iff_not]
  intro hv
  exact h (List.mem_flatten.2 ⟨p, hp, hv⟩)

/-- Appending pages does not move photos already placed. -/
theorem pageOf_append_left {pages extra : List (List Nat)} {v : Nat}
    (h : v ∈ pages.flatten) : pageOf (pages ++ extra) v = pageOf pages v := by
  unfold pageOf
  rw [List.findIdx_append]
  have := pageOf_mem_lt h
  unfold pageOf at this
  simp [this]

/-- Dropping members (here: the members of `S`) from every page does
not move the photos that remain. -/
theorem pageOf_filter_out {pages : List (List Nat)} {S : List Nat} {v : Nat}
    (hv : v ∉ S) :
    pageOf (pages.map (fun p => p.filter (fun x => x ∉ S))) v = pageOf pages v := by
  induction pages with
  | nil => rfl
  | cons p tl ih =>
    simp only [List.map_cons]
    rw [pageOf_cons, pageOf_cons, ih]
    have : v ∈ p.filter (fun x => x ∉ S) ↔ v ∈ p := by
      simp only [List.mem_filter, decide_eq_true_eq]
      exact ⟨fun h => h.1, fun h => ⟨h, hv⟩⟩
    by_cases hvp : v ∈ p <;> simp [this, hvp, hv]

/-- Pages positioned after pages that cannot contain `v` shift its page
index by the number of skipped pages. -/
theorem pageOf_append_right {A B : List (List Nat)} {v : Nat}
    (h : v ∉ A.flatten) : pageOf (A ++ B) v = A.length + pageOf B v := by
  unfold pageOf
  rw [List.findIdx_append]
  have hA : A.findIdx (fun p => v ∈ p) = A.length := pageOf_not_mem h
  rw [hA, if_neg (Nat.lt_irrefl _)]
  exact Nat.add_comm _ _

theorem flatten_map_filter (pages : List (List Nat)) (q : Nat → Bool) :
    (pages.map (fun p => p.filter q)).flatten = pages.flatten.filter q := by
  induction pages with
  | nil => rfl
  | cons p tl ih =>
    simp only [List.map_cons, List.flatten_cons, List.filter_append, ih]

theorem flatten_replicate_nil (k : Nat) :
    (List.replicate k ([] : List Nat)).flatten = [] := by
  induction k with
  | zero => rfl
  | succ n ih => simp [List.replicate_succ, ih]

/-! ### Transformations of schedules -/

theorem flatten_length_le (ps : List (List Nat)) (m : Nat)
    (h : ∀ p ∈ ps, p.length ≤ m) : ps.flatten.length ≤ m * ps.length := by
  have h2 : ps.flatten.length ≤ ps.length * m := by
    rw [List.length_flatten]
    have := List.sum_le_card_nsmul (ps.map List.length) m
      (by intro x hx
          rcases List.mem_map.1 hx with ⟨p, hp, hlen⟩
          rw [← hlen]; exact h p hp)
    simpa [smul_eq_mul] using this
  rw [Nat.mul_comm]
  omega

/-- Each page holds at most `m` photos, so `|V| ≤ m · #pages`. -/
theorem sched_length_le {g : Graph} {m : Nat} {pages : List (List Nat)}
    (h : Sched g m pages) : g.length ≤ m * pages.length := by
  obtain ⟨hperm, hsize, _⟩ := h
  have h1 : pages.flatten.length = g.length := by
    rw [hperm.length_eq, length_keys]
  have h2 := flatten_length_le pages m hsize
  omega

/-- Removing the photos of `S` from a schedule of `g` yields a schedule
of `g` with the keys of `S` deleted. -/
theorem sched_restrict {g : Graph} {m : Nat} {pages : List (List Nat)}
    (S : List Nat) (h : Sched g m pages) :
    Sched (eraseAll g S) m (pages.map (fun p => p.filter (fun x => x ∉ S))) := by
  obtain ⟨hperm, hsize, hedge⟩ := h
  refine ⟨?_, ?_, ?_⟩
  · rw [flatten_map_filter, keys_eraseAll]
    exact hperm.filter _
  · intro p hp
    rcases List.mem_map.1 hp with ⟨q, hq, hpq⟩
    rw [← hpq]
    exact Nat.le_trans (List.length_filter_le _ _) (hsize q hq)
  · intro u v he hv
    rcases edge_eraseAll_iff.1 he with ⟨heg, huS⟩
    rcases mem_keys_eraseAll.1 hv with ⟨hvk, hvS⟩
    rw [pageOf_filter_out huS, pageOf_filter_out hvS]
    exact hedge u v heg hvk

/-- A leading empty page can be dropped. -/
theorem sched_drop_empty_head {g : Graph} {m : Nat} {pages : List (List Nat)}
    (h : Sched g m ([] :: pages)) : Sched g m pages := by
  obtain ⟨hperm, hsize, hedge⟩ := h
  refine ⟨by simpa using hperm, fun p hp => hsize p (List.mem_cons_of_mem _ hp), ?_⟩
  intro u v he hv
  have := hedge u v he hv
  rw [pageOf_cons, pageOf_cons] at this
  simpa using this

/-- Trailing empty pages can be appended. -/
theorem sched_pad {g : Graph} {m : Nat} {pages : List (List Nat)} (k : Nat)
    (h : Sched g m pages) : Sched g m (pages ++ List.replicate k []) := by
  obtain ⟨hperm, hsize, hedge⟩ := h
  refine ⟨?_, ?_, ?_⟩
  · rw [List.flatten_append, flatten_replicate_nil, List.append_nil]
    exact hperm
  · intro p hp
    rcases List.mem_append.1 hp with hp | hp
    · exact hsize p hp
    · rw [(List.mem_replicate.1 hp).2]
      exact Nat.zero_le m
  · intro u v he hv
    have hu : u ∈ pages.flatten := hperm.mem_iff.2 (edge_source_mem he)
    have hv' : v ∈ pages.flatten := hperm.mem_iff.2 hv
    rw [pageOf_append_left hu, pageOf_append_left hv']
    exact hedge u v he hv

/-- In any schedule, the photos of the first page are roots. -/
theorem first_page_subset_roots {g : Graph} {m : Nat} {p : List Nat}
    {pages : List (List Nat)} (h : Sched g m (p :: pages)) :
    ∀ v ∈ p, v ∈ roots g := by
  obtain ⟨hperm, _, hedge⟩ := h
  intro v hv
  have hvk : v ∈ keys g :=
    hperm.mem_iff.1 (List.mem_flatten.2 ⟨p, List.mem_cons_self p pages, hv⟩)
  refine mem_roots_iff.2 ⟨hvk, ?_⟩
  intro ⟨u, hu⟩
  have := hedge u v hu hvk
  rw [pageOf_cons (v := v)] at this
  simp [hv] at this

/-- Prepending a page of roots to a schedule of the remaining graph. -/
theorem sched_cons {g : Graph} {m : Nat} {C : List Nat}
    {pages : List (List Nat)} (hnd : (keys g).Nodup) (hC : C.Nodup)
    (hsub : ∀ v ∈ C, v ∈ roots g) (hlen : C.length ≤ m)
    (h : Sched (eraseAll g C) m pages) : Sched g m (C :: pages) := by
  obtain ⟨hperm, hsize, hedge⟩ := h
  have hCkeys : ∀ v ∈ C, v ∈ keys g := fun v hv => roots_subset_keys g v (hsub v hv)
  refine ⟨?_, ?_, ?_⟩
  · simp only [List.flatten_cons]
    exact (List.Perm.append (List.Perm.refl C) hperm).trans
      (perm_keys_eraseAll hnd hC hCkeys).symm
  · intro p hp
    rcases List.mem_cons.1 hp with hp | hp
    · rw [hp]; exact hlen
    · exact hsize p hp
  · intro u v he hv
    have hvC : v ∉ C := by
      intro hvC
      exact (mem_roots_iff.1 (hsub v hvC)).2 ⟨u, he⟩
    rw [pageOf_cons (v := v)]
    simp only [hvC, if_false]
    by_cases huC : u ∈ C
    · rw [pageOf_cons]
      simp [huC]
    · rw [pageOf_cons]
      simp only [huC, if_false]
      have he' : Edge (eraseAll g C) u v := edge_eraseAll_iff.2 ⟨he, huC⟩
      have hv' : v ∈ keys (eraseAll g C) := mem_keys_eraseAll.2 ⟨hv, hvC⟩
      exact Nat.succ_lt_succ (hedge u v he' hv')

/-! ### Correctness of the root-peeling acyclicity check -/

theorem acyclic_nil : Acyclic ([] : Graph) := by
  intro ⟨v, hv⟩
  cases hv with
  | single h => exact absurd h (by rintro ⟨p, hp, -⟩; exact (List.not_mem_nil p) hp)
  | tail _ h => exact absurd h (by rintro ⟨p, hp, -⟩; exact (List.not_mem_nil p) hp)

theorem transGen_target {g : Graph} {a b : Nat}
    (h : Relation.TransGen (Edge g) a b) : b ∈ targets g := by
  cases h with
  | single h => exact edge_target_mem h
  | tail _ h => exact edge_target_mem h

/-- A backward chain `… → f 2 → f 1 → f 0` gives transitive paths from
later to earlier elements. -/
theorem transGen_of_backward_chain {g : Graph} {f : Nat → Nat}
    (hf : ∀ k, Edge g (f (k + 1)) (f k)) :
    ∀ i j, i < j → Relation.TransGen (Edge g) (f j) (f i) := by
  intro i j
  induction j with
  | zero => omega
  | succ j ih =>
    intro hij
    rcases Nat.lt_or_ge i j with hlt | hge
    · exact Relation.TransGen.head (hf j) (ih hlt)
    · have : i = j := by omega
      rw [this]
      exact Relation.TransGen.single (hf j)

/-- A nonempty graph in which every vertex has an ingoing edge contains
a cycle (walk backwards and apply the pigeonhole principle). -/
theorem hascycle_of_no_roots {g : Graph} (hne : g ≠ [])
    (hroots : roots g = []) : HasCycle g := by
  have hstep : ∀ v ∈ keys g, ∃ u, u ∈ keys g ∧ Edge g u v := by
    intro v hv
    have hvt : v ∈ targets g := (roots_eq_nil_iff.1 hroots) v hv
    rcases mem_targets_iff_edge.1 hvt with ⟨u, hu⟩
    exact ⟨u, edge_source_mem hu, hu⟩
  have hk : keys g ≠ [] := by
    intro h
    apply hne
    cases g with
    | nil => rfl
    | cons p tl => simp [keys] at h
  obtain ⟨v0, hv0⟩ := List.exists_mem_of_length_pos (List.length_pos.2 hk)
  -- the backward walk, as a function into the vertices of the graph
  let f : Nat → {v // v ∈ keys g} := fun k =>
    Nat.rec ⟨v0, hv0⟩
      (fun _ prev => ⟨(hstep prev.1 prev.2).choose, (hstep prev.1 prev.2).choose_spec.1⟩) k
  have hedge : ∀ k, Edge g (f (k + 1)).1 (f k).1 := fun k =>
    (hstep (f k).1 (f k).2).choose_spec.2
  -- pigeonhole over the first (keys g).length + 1 values of the walk
  have hcard : (keys g).toFinset.card < Fintype.card (Fin ((keys g).length + 1)) := by
    have := List.toFinset_card_le (keys g)
    simp only [Fintype.card_fin]
    omega
  obtain ⟨i, -, j, -, hij, hfij⟩ :=
    Finset.exists_ne_map_eq_of_card_lt_of_maps_to
      (s := (Finset.univ : Finset (Fin ((keys g).length + 1))))
      (by simpa using hcard)
      (f := fun i : Fin ((keys g).length + 1) => (f i.1).1)
      (fun a _ => List.mem_toFinset.2 (f a.1).2)
  rcases Nat.lt_or_ge i.1 j.1 with hlt | hge
  · refine ⟨(f j.1).1, ?_⟩
    have h2 : Relation.TransGen (Edge g) (f j.1).1 (f i.1).1 :=
      transGen_of_backward_chain (f := fun k => (f k).1) hedge i.1 j.1 hlt
    rwa [hfij] at h2
  · have hlt : j.1 < i.1 := by
      rcases Nat.lt_or_ge j.1 i.1 with h | h
      · exact h
      · exact absurd (Fin.ext (by omega)) hij
    refine ⟨(f i.1).1, ?_⟩
    have h2 : Relation.TransGen (Edge g) (f i.1).1 (f j.1).1 :=
      transGen_of_backward_chain (f := fun k => (f k).1) hedge j.1 i.1 hlt
    rwa [← hfij] at h2

/-- A nonempty acyclic graph has at least one root. -/
theorem roots_ne_nil_of_acyclic {g : Graph} (hne : g ≠ []) (hac : Acyclic g) :
    roots g ≠ [] := fun h => hac (hascycle_of_no_roots hne h)

/-- A transitive path whose start has an ingoing edge survives the
deletion of all roots. -/
theorem transGen_eraseAll_roots {g : Graph} {a b : Nat}
    (h : Relation.TransGen (Edge g) a b) :
    a ∈ targets g → Relation.TransGen (Edge (eraseAll g (roots g))) a b := by
  have not_root : ∀ x, x ∈ targets g → x ∉ roots g := by
    intro x hx hr
    rcases List.mem_filter.1 hr with ⟨-, hnot⟩
    simp [hx] at hnot
  induction h using Relation.TransGen.head_induction_on with
  | base h =>
    exact fun hmem =>
      Relation.TransGen.single (edge_eraseAll_iff.2 ⟨h, not_root _ hmem⟩)
  | ih h _ ih =>
    exact fun hmem =>
      Relation.TransGen.head (edge_eraseAll_iff.2 ⟨h, not_root _ hmem⟩)
        (ih (edge_target_mem h))

theorem length_eq_zero_iff_nil {g : Graph} : g.length = 0 ↔ g = [] :=
  List.length_eq_zero

/-- If the peeling loop empties the graph, the graph is acyclic. -/
theorem acyclic_of_is_acyclic_aux :
    ∀ N : Nat, ∀ g : Graph, g.length ≤ N → is_acyclic g = true → Acyclic g := by
  intro N
  induction N with
  | zero =>
    intro g hlen _
    have : g = [] := length_eq_zero_iff_nil.1 (by omega)
    rw [this]
    exact acyclic_nil
  | succ N ih =>
    intro g hlen hacy
    by_cases h0 : g.length = 0
    · rw [length_eq_zero_iff_nil.1 h0]
      exact acyclic_nil
    · rw [is_acyclic] at hacy
      simp only [h0, if_false] at hacy
      by_cases hr : (roots g).length = 0
      · simp [hr] at hacy
      · simp only [hr, dif_neg, dite_eq_ite, if_false] at hacy
        have hlt : (eraseAll g (roots g)).length < g.length := by
          rcases List.exists_mem_of_length_pos (Nat.pos_of_ne_zero hr) with ⟨v, hv⟩
          exact length_eraseAll_lt g (roots g) v hv (roots_subset_keys g v hv)
        have hac' : Acyclic (eraseAll g (roots g)) := ih _ (by omega) hacy
        intro ⟨v, hv⟩
        exact hac' ⟨v, transGen_eraseAll_roots hv (transGen_target hv)⟩

theorem acyclic_of_is_acyclic {g : Graph} (h : is_acyclic g = true) : Acyclic g :=
  acyclic_of_is_acyclic_aux g.length g (Nat.le_refl _) h

/-- If the peeling loop gets stuck, the graph has a cycle. -/
theorem hascycle_of_not_is_acyclic_aux :
    ∀ N : Nat, ∀ g : Graph, g.length ≤ N → is_acyclic g = false → HasCycle g := by
  intro N
  induction N with
  | zero =>
    intro g hlen hacy
    have : g = [] := length_eq_zero_iff_nil.1 (by omega)
    rw [this] at hacy
    rw [is_acyclic] at hacy
    simp at hacy
  | succ N ih =>
    intro g hlen hacy
    rw [is_acyclic] at hacy
    by_cases h0 : g.length = 0
    · simp [h0] at hacy
    · simp only [h0, if_false] at hacy
      by_cases hr : (roots g).length = 0
      · exact hascycle_of_no_roots (fun h => h0 (by rw [h]; rfl))
          (List.length_eq_zero.1 hr)
      · simp only [hr, dif_neg, dite_eq_ite, if_false] at hacy
        have hlt : (eraseAll g (roots g)).length < g.length := by
          rcases List.exists_mem_of_length_pos (Nat.pos_of_ne_zero hr) with ⟨v, hv⟩
          exact length_eraseAll_lt g (roots g) v hv (roots_subset_keys g v hv)
        rcases ih _ (by omega) hacy with ⟨v, hv⟩
        exact ⟨v, hv.mono (fun a b hab => (edge_eraseAll_iff.1 hab).1)⟩

/-- `is_acyclic` decides acyclicity. -/
theorem is_acyclic_iff_acyclic {g : Graph} : is_acyclic g = true ↔ Acyclic g := by
  constructor
  · exact acyclic_of_is_acyclic
  · intro hac
    by_contra h
    have : is_acyclic g = false := by
      cases hval : is_acyclic g
      · rfl
      · exact absurd hval h
    exact hac (hascycle_of_not_is_acyclic_aux g.length g (Nat.le_refl _) this)

/-! ### A schedule with one photo per page always exists -/

theorem flatten_map_singleton (L : List Nat) :
    (L.map (fun v => [v])).flatten = L := by
  induction L with
  | nil => rfl
  | cons a tl ih => simp [ih]

theorem sched_nil (m : Nat) : Sched [] m [] := by
  refine ⟨List.Perm.nil, ?_, ?_⟩
  · intro p hp
    exact absurd hp (List.not_mem_nil p)
  · intro u v he _
    rcases he with ⟨p, hp, -, -⟩
    exact absurd hp (List.not_mem_nil p)

/-- Any acyclic graph admits a schedule with `|V|` pages (one photo per
page, in topological order). -/
theorem exists_singleton_sched :
    ∀ N : Nat, ∀ g : Graph, ∀ m : Nat, g.length ≤ N → (keys g).Nodup →
      Acyclic g → 1 ≤ m →
      ∃ pages, Sched g m pages ∧ pages.length = g.length := by
  intro N
  induction N with
  | zero =>
    intro g m hlen _ _ _
    have hg : g = [] := length_eq_zero_iff_nil.1 (by omega)
    subst hg
    exact ⟨[], sched_nil m, rfl⟩
  | succ N ih =>
    intro g m hlen hnd hac hm
    by_cases h0 : g.length = 0
    · have hg : g = [] := length_eq_zero_iff_nil.1 h0
      subst hg
      exact ⟨[], sched_nil m, rfl⟩
    · have hgne : g ≠ [] := fun h => h0 (by rw [h]; rfl)
      have hR : roots g ≠ [] := roots_ne_nil_of_acyclic hgne hac
      obtain ⟨v1, hv1⟩ := List.exists_mem_of_length_pos (List.length_pos.2 hR)
      have hlt : (eraseAll g (roots g)).length < g.length :=
        length_eraseAll_lt g (roots g) v1 hv1 (roots_subset_keys g v1 hv1)
      obtain ⟨pages', hsched', hlen'⟩ :=
        ih (eraseAll g (roots g)) m (by omega) (nodup_keys_eraseAll _ hnd)
          (acyclic_eraseAll _ hac) hm
      obtain ⟨hperm', hsize', hedge'⟩ := hsched'
      have hperm := perm_keys_eraseAll hnd (roots_nodup hnd) (roots_subset_keys g)
      refine ⟨(roots g).map (fun v => [v]) ++ pages', ⟨?_, ?_, ?_⟩, ?_⟩
      · rw [List.flatten_append, flatten_map_singleton]
        exact (List.Perm.append (List.Perm.refl _) hperm').trans hperm.symm
      · intro p hp
        rcases List.mem_append.1 hp with hp | hp
        · rcases List.mem_map.1 hp with ⟨v, -, hpv⟩
          rw [← hpv]
          exact hm
        · exact hsize' p hp
      · intro u v he hv
        have hvR : v ∉ roots g := fun hvR =>
          (mem_roots_iff.1 hvR).2 ⟨u, he⟩
        have hvflat : v ∉ ((roots g).map (fun v => [v])).flatten := by
          rw [flatten_map_singleton]; exact hvR
        rw [pageOf_append_right hvflat, List.length_map]
        by_cases huR : u ∈ roots g
        · have huflat : u ∈ ((roots g).map (fun v => [v])).flatten := by
            rw [flatten_map_singleton]; exact huR
          rw [pageOf_append_left huflat]
          have := pageOf_mem_lt huflat
          rw [List.length_map] at this
          omega
        · have huflat : u ∉ ((roots g).map (fun v => [v])).flatten := by
            rw [flatten_map_singleton]; exact huR
          rw [pageOf_append_right huflat, List.length_map]
          have he' : Edge (eraseAll g (roots g)) u v := edge_eraseAll_iff.2 ⟨he, huR⟩
          have hv' : v ∈ keys (eraseAll g (roots g)) := mem_keys_eraseAll.2 ⟨hv, hvR⟩
          have := hedge' u v he' hv'
          omega
      · rw [List.length_append, List.length_map, hlen']
        have := hperm.length_eq
        rw [List.length_append, length_keys, length_keys] at this
        omega

/-! ### Unfolding and fuel lemmas for the solver -/

theorem mpfF_succ (fuel : Nat) (g : Graph) (m : Nat) :
    min_page_feasibleF (fuel + 1) g m =
      (if g.length = 0 then some 0
       else if m = 1 then some g.length
       else if (isolated_vertices g).isEmpty then
         (if (roots g).length ≤ m then
            (min_page_feasibleF fuel (eraseAll g (roots g)) m).map (fun r => 1 + r)
          else
            (List.sublistsLen m (roots g)).foldl (combStep fuel m g) (some g.length))
       else
         (match min_page_feasibleF fuel (eraseAll g (isolated_vertices g)) m with
          | some r => some (Max.max r (ceilDiv g.length m))
          | none => none)) := rfl

theorem mpfF_empty (fuel : Nat) (g : Graph) (m : Nat) (hg : g.length = 0) :
    min_page_feasibleF (fuel + 1) g m = some 0 := by
  rw [mpfF_succ]
  simp [hg]

theorem mpfF_one (fuel : Nat) (g : Graph) (hg : g.length ≠ 0) :
    min_page_feasibleF (fuel + 1) g 1 = some g.length := by
  rw [mpfF_succ]
  simp [hg]

theorem mpfF_iso (fuel : Nat) (g : Graph) (m : Nat) (hg : g.length ≠ 0)
    (hm : m ≠ 1) (hiso : isolated_vertices g ≠ []) :
    min_page_feasibleF (fuel + 1) g m =
      (match min_page_feasibleF fuel (eraseAll g (isolated_vertices g)) m with
       | some r => some (Max.max r (ceilDiv g.length m))
       | none => none) := by
  rw [mpfF_succ]
  have : (isolated_vertices g).isEmpty = false := by
    cases hval : (isolated_vertices g).isEmpty
    · rfl
    · exact absurd (List.isEmpty_iff.1 hval) hiso
  simp [hg, hm, this]

theorem mpfF_allroots (fuel : Nat) (g : Graph) (m : Nat) (hg : g.length ≠ 0)
    (hm : m ≠ 1) (hiso : isolated_vertices g = [])
    (hr : (roots g).length ≤ m) :
    min_page_feasibleF (fuel + 1) g m =
      (min_page_feasibleF fuel (eraseAll g (roots g)) m).map (fun r => 1 + r) := by
  rw [mpfF_succ]
  simp [hg, hm, hiso, hr]

theorem mpfF_comb (fuel : Nat) (g : Graph) (m : Nat) (hg : g.length ≠ 0)
    (hm : m ≠ 1) (hiso : isolated_vertices g = [])
    (hr : ¬ (roots g).length ≤ m) :
    min_page_feasibleF (fuel + 1) g m =
      (List.sublistsLen m (roots g)).foldl (combStep fuel m g) (some g.length) := by
  rw [mpfF_succ]
  simp [hg, hm, hiso, hr]

theorem foldl_combStep_none (fuel m : Nat) (g : Graph) (L : List (List Nat)) :
    L.foldl (combStep fuel m g) none = none := by
  induction L with
  | nil => rfl
  | cons C tl ih =>
    rw [List.foldl_cons]
    have : combStep fuel m g none C = none := by
      unfold combStep
      cases min_page_feasibleF fuel (eraseAll g C) m <;> rfl
    rw [this, ih]

/-- What the case-3 fold guarantees when it produces a value: the value
is below the initial bound and below `1 +` every branch value, and every
branch produced a value. -/
theorem foldl_combStep_elim (fuel m : Nat) (g : Graph) :
    ∀ L : List (List Nat), ∀ a r : Nat,
      L.foldl (combStep fuel m g) (some a) = some r →
      r ≤ a ∧ ∀ C ∈ L, ∃ rc, min_page_feasibleF fuel (eraseAll g C) m = some rc ∧
        r ≤ 1 + rc := by
  intro L
  induction L with
  | nil =>
    intro a r h
    simp only [List.foldl_nil, Option.some.injEq] at h
    subst h
    exact ⟨Nat.le_refl _, by intro C hC; exact absurd hC (List.not_mem_nil C)⟩
  | cons C tl ih =>
    intro a r h
    rw [List.foldl_cons] at h
    cases hC : min_page_feasibleF fuel (eraseAll g C) m with
    | none =>
      rw [show combStep fuel m g (some a) C = none by unfold combStep; rw [hC]] at h
      rw [foldl_combStep_none] at h
      exact absurd h (by simp)
    | some rc =>
      rw [show combStep fuel m g (some a) C = some (Min.min a (1 + rc)) by
        unfold combStep; rw [hC]] at h
      obtain ⟨hle, hall⟩ := ih _ _ h
      refine ⟨Nat.le_trans hle (Nat.min_le_left _ _), ?_⟩
      intro C' hC'
      rcases List.mem_cons.1 hC' with hC' | hC'
      · subst hC'
        exact ⟨rc, hC, Nat.le_trans hle (Nat.min_le_right _ _)⟩
      · exact hall C' hC'

/-- The case-3 fold produces a value as soon as every branch does. -/
theorem foldl_combStep_intro (fuel m : Nat) (g : Graph) :
    ∀ L : List (List Nat), ∀ a : Nat,
      (∀ C ∈ L, ∃ rc, min_page_feasibleF fuel (eraseAll g C) m = some rc) →
      ∃ r, L.foldl (combStep fuel m g) (some a) = some r := by
  intro L
  induction L with
  | nil => exact fun a _ => ⟨a, rfl⟩
  | cons C tl ih =>
    intro a hall
    obtain ⟨rc, hC⟩ := hall C (List.mem_cons_self C tl)
    rw [List.foldl_cons,
      show combStep fuel m g (some a) C = some (Min.min a (1 + rc)) by
        unfold combStep; rw [hC]]
    exact ih _ (fun C' hC' => hall C' (List.mem_cons_of_mem _ hC'))

/-- The value of the case-3 fold is the initial bound or `1 +` one of
the branch values. -/
theorem foldl_combStep_achieved (fuel m : Nat) (g : Graph) :
    ∀ L : List (List Nat), ∀ a r : Nat,
      L.foldl (combStep fuel m g) (some a) = some r →
      r = a ∨ ∃ C ∈ L, ∃ rc, min_page_feasibleF fuel (eraseAll g C) m = some rc ∧
        r = 1 + rc := by
  intro L
  induction L with
  | nil =>
    intro a r h
    simp only [List.foldl_nil, Option.some.injEq] at h
    exact Or.inl h.symm
  | cons C tl ih =>
    intro a r h
    rw [List.foldl_cons] at h
    cases hC : min_page_feasibleF fuel (eraseAll g C) m with
    | none =>
      rw [show combStep fuel m g (some a) C = none by unfold combStep; rw [hC]] at h
      rw [foldl_combStep_none] at h
      exact absurd h (by simp)
    | some rc =>
      rw [show combStep fuel m g (some a) C = some (Min.min a (1 + rc)) by
        unfold combStep; rw [hC]] at h
      rcases ih _ _ h with hr | ⟨C', hC', rc', hrc', hr⟩
      · rcases Nat.le_total a (1 + rc) with hmin | hmin
        · exact Or.inl (by rw [hr]; exact Nat.min_eq_left hmin)
        · refine Or.inr ⟨C, List.mem_cons_self C tl, rc, hC, ?_⟩
          rw [hr]
          exact Nat.min_eq_right hmin
      · exact Or.inr ⟨C', List.mem_cons_of_mem _ hC', rc', hrc', hr⟩

/-- A lower bound that holds for the initial accumulator and for
`1 +` every branch value is a lower bound on the fold's value. -/
theorem foldl_combStep_ge (fuel m : Nat) (g : Graph) (b : Nat) :
    ∀ L : List (List Nat), ∀ a r : Nat, b ≤ a →
      (∀ C ∈ L, ∀ rc, min_page_feasibleF fuel (eraseAll g C) m = some rc →
        b ≤ 1 + rc) →
      L.foldl (combStep fuel m g) (some a) = some r → b ≤ r := by
  intro L
  induction L with
  | nil =>
    intro a r hba _ h
    simp only [List.foldl_nil, Option.some.injEq] at h
    omega
  | cons C tl ih =>
    intro a r hba hall h
    rw [List.foldl_cons] at h
    cases hC : min_page_feasibleF fuel (eraseAll g C) m with
    | none =>
      rw [show combStep fuel m g (some a) C = none by unfold combStep; rw [hC]] at h
      rw [foldl_combStep_none] at h
      exact absurd h (by simp)
    | some rc =>
      rw [show combStep fuel m g (some a) C = some (Min.min a (1 + rc)) by
        unfold combStep; rw [hC]] at h
      have hb2 : b ≤ Min.min a (1 + rc) :=
        Nat.le_min.2 ⟨hba, hall C (List.mem_cons_self C tl) rc hC⟩
      exact ih _ _ hb2 (fun C' hC' => hall C' (List.mem_cons_of_mem _ hC')) h

/-- Folds with pointwise-equal branch results agree. -/
theorem foldl_combStep_congr (fuel fuel' m : Nat) (g : Graph) :
    ∀ L : List (List Nat), ∀ acc : Option Nat,
      (∀ C ∈ L, min_page_feasibleF fuel (eraseAll g C) m =
        min_page_feasibleF fuel' (eraseAll g C) m) →
      L.foldl (combStep fuel m g) acc = L.foldl (combStep fuel' m g) acc := by
  intro L
  induction L with
  | nil => intro acc _; rfl
  | cons C tl ih =>
    intro acc hall
    rw [List.foldl_cons, List.foldl_cons]
    have hstep : combStep fuel m g acc C = combStep fuel' m g acc C := by
      unfold combStep
      rw [hall C (List.mem_cons_self C tl)]
    rw [hstep]
    exact ih _ (fun C' hC' => hall C' (List.mem_cons_of_mem _ hC'))

/-- Adding fuel never changes a result that was already reached. -/
theorem mpfF_mono :
    ∀ fuel fuel' : Nat, fuel ≤ fuel' → ∀ g : Graph, ∀ m r : Nat,
      min_page_feasibleF fuel g m = some r → min_page_feasibleF fuel' g m = some r := by
  intro fuel
  induction fuel with
  | zero =>
    intro fuel' _ g m r h
    exact absurd h (by simp [min_page_feasibleF])
  | succ fuel ih =>
    intro fuel' hle g m r h
    obtain ⟨fuel'', rfl⟩ : ∃ k, fuel' = k + 1 := by
      cases fuel' with
      | zero => omega
      | succ k => exact ⟨k, rfl⟩
    have hle' : fuel ≤ fuel'' := by omega
    by_cases hg : g.length = 0
    · rw [mpfF_empty _ _ _ hg] at h
      rw [mpfF_empty _ _ _ hg]
      exact h
    · by_cases hm : m = 1
      · subst hm
        rw [mpfF_one _ _ hg] at h
        rw [mpfF_one _ _ hg]
        exact h
      · by_cases hiso : isolated_vertices g = []
        · by_cases hr : (roots g).length ≤ m
          · rw [mpfF_allroots _ _ _ hg hm hiso hr] at h
            rw [mpfF_allroots _ _ _ hg hm hiso hr]
            rcases Option.map_eq_some'.1 h with ⟨r2, hr2, hr2e⟩
            rw [ih _ hle' _ _ _ hr2]
            simp [hr2e]
          · rw [mpfF_comb _ _ _ hg hm hiso hr] at h
            rw [mpfF_comb _ _ _ hg hm hiso hr]
            obtain ⟨-, hall⟩ := foldl_combStep_elim fuel m g _ _ _ h
            rw [← foldl_combStep_congr fuel fuel'' m g _ _
              (fun C hC => by
                obtain ⟨rc, hrc, -⟩ := hall C hC
                rw [hrc, ih _ hle' _ _ _ hrc])]
            exact h
        · rw [mpfF_iso _ _ _ hg hm hiso] at h
          rw [mpfF_iso _ _ _ hg hm hiso]
          cases hrec : min_page_feasibleF fuel (eraseAll g (isolated_vertices g)) m with
          | none => rw [hrec] at h; exact absurd h (by simp)
          | some r2 =>
            rw [hrec] at h
            rw [ih _ hle' _ _ _ hrec]
            exact h

/-! ### Filling spare page capacity with unconstrained photos -/

/-- Spare capacity of a page list can absorb a disjoint list of extra
photos without moving any photo already placed and without growing the
number of pages, as long as the total capacity suffices. -/
theorem pages_fill (m : Nat) :
    ∀ ps : List (List Nat), ∀ xs : List Nat,
      (∀ p ∈ ps, p.length ≤ m) →
      xs.length + ps.flatten.length ≤ m * ps.length →
      (ps.flatten ++ xs).Nodup →
      ∃ ps' : List (List Nat), ps'.length = ps.length ∧
        List.Perm ps'.flatten (ps.flatten ++ xs) ∧
        (∀ p ∈ ps', p.length ≤ m) ∧
        ∀ v ∈ ps.flatten, pageOf ps' v = pageOf ps v := by
  intro ps
  induction ps with
  | nil =>
    intro xs _ hcap _
    have : xs = [] := by
      simp only [List.flatten_nil, List.length_nil, Nat.mul_zero] at hcap
      exact List.length_eq_zero.1 (by omega)
    subst this
    exact ⟨[], rfl, List.Perm.nil, by intro p hp; exact absurd hp (List.not_mem_nil p),
      by intro v hv; rfl⟩
  | cons p tl ih =>
    intro xs hsz hcap hnd
    have hple : p.length ≤ m := hsz p (List.mem_cons_self p tl)
    have hnd' : (p ++ (tl.flatten ++ xs)).Nodup := by
      rw [← List.append_assoc]
      simpa [List.flatten_cons, List.append_assoc] using hnd
    obtain ⟨hndp, hndrest, hdisj⟩ := List.nodup_append.1 hnd'
    obtain ⟨hndtl, hndxs, hdisj2⟩ := List.nodup_append.1 hndrest
    have hmul : m * (p :: tl).length = m * tl.length + m := by
      rw [List.length_cons]
      ring
    have hflat : (p :: tl).flatten.length = p.length + tl.flatten.length := by
      rw [List.flatten_cons, List.length_append]
    rw [hflat, hmul] at hcap
    have hfm : tl.flatten.length ≤ m * tl.length :=
      flatten_length_le tl m (fun q hq => hsz q (List.mem_cons_of_mem _ hq))
    obtain ⟨ps'', hlen'', hperm'', hsz'', hpage''⟩ :=
      ih (xs.drop (m - p.length))
        (fun q hq => hsz q (List.mem_cons_of_mem _ hq))
        (by
          have hdrop : (xs.drop (m - p.length)).length = xs.length - (m - p.length) :=
            List.length_drop _ _
          omega)
        (by
          have hsub : List.Sublist (tl.flatten ++ xs.drop (m - p.length))
              (tl.flatten ++ xs) :=
            List.Sublist.append (List.Sublist.refl _) (List.drop_sublist _ _)
          exact hndrest.sublist hsub)
    refine ⟨(p ++ xs.take (m - p.length)) :: ps'', by simp [hlen''], ?_, ?_, ?_⟩
    · simp only [List.flatten_cons]
      have h1 : List.Perm ((p ++ xs.take (m - p.length)) ++ ps''.flatten)
          (p ++ (xs.take (m - p.length) ++ (tl.flatten ++ xs.drop (m - p.length)))) := by
        rw [List.append_assoc]
        exact List.Perm.append_left p (List.Perm.append_left _ hperm'')
      have h2 : List.Perm (xs.take (m - p.length) ++ (tl.flatten ++ xs.drop (m - p.length)))
          (tl.flatten ++ xs) := by
        rw [← List.append_assoc]
        have := List.Perm.append_right (xs.drop (m - p.length))
          (@List.perm_append_comm Nat (xs.take (m - p.length)) tl.flatten)
        refine this.trans ?_
        rw [List.append_assoc, List.take_append_drop]
      exact (h1.trans (List.Perm.append_left p h2)).trans
        (by rw [← List.append_assoc])
    · intro q hq
      rcases List.mem_cons.1 hq with hq | hq
      · subst hq
        rw [List.length_append]
        have := List.length_take (m - p.length) xs
        omega
      · exact hsz'' q hq
    · intro v hv
      rw [List.flatten_cons] at hv
      rcases List.mem_append.1 hv with hvp | hvtl
      · rw [pageOf_cons, pageOf_cons]
        have : v ∈ p ++ xs.take (m - p.length) := List.mem_append.2 (Or.inl hvp)
        simp [hvp, this]
      · have hvnp : v ∉ p := fun hvp => hdisj hvp (List.mem_append.2 (Or.inl hvtl))
        have hvnxs : v ∉ xs := fun hvxs => hdisj2 hvtl hvxs
        have hvntake : v ∉ xs.take (m - p.length) := fun hvt =>
          hvnxs (List.take_subset _ _ hvt)
        rw [pageOf_cons, pageOf_cons]
        have hnottop : v ∉ p ++ xs.take (m - p.length) := by
          intro hmem
          rcases List.mem_append.1 hmem with h | h
          · exact hvnp h
          · exact hvntake h
        simp only [hvnp, hnottop, if_false]
        rw [hpage'' v hvtl]

/-- Extending an optimal schedule of `g` minus its isolated vertices to
a schedule of `g`, using `max` of the old page count and `⌈n/m⌉` pages. -/
theorem sched_add_isolated {g : Graph} {m : Nat} {pages' : List (List Nat)}
    (hm : 0 < m) (hnd : (keys g).Nodup)
    (hs : Sched (eraseAll g (isolated_vertices g)) m pages') :
    ∃ pages, Sched g m pages ∧
      pages.length = Max.max pages'.length (ceilDiv g.length m) := by
  set I := isolated_vertices g with hI
  have hInd : I.Nodup := (roots_nodup hnd).filter _
  have hIsub : ∀ v ∈ I, v ∈ keys g := fun v hv =>
    roots_subset_keys g v (isolated_subset_roots g v hv)
  have hkeysperm := perm_keys_eraseAll hnd hInd hIsub
  set Q := Max.max pages'.length (ceilDiv g.length m) with hQ
  set padded := pages' ++ List.replicate (Q - pages'.length) ([] : List Nat) with hpadded
  have hpadlen : padded.length = Q := by
    rw [hpadded, List.length_append, List.length_replicate]
    have : pages'.length ≤ Q := Nat.le_max_left _ _
    omega
  have hschedpad : Sched (eraseAll g I) m padded := sched_pad _ hs
  obtain ⟨hpermpad, hszpad, hedgepad⟩ := hschedpad
  have hflatlen : padded.flatten.length = (eraseAll g I).length := by
    rw [hpermpad.length_eq, length_keys]
  have hglen : g.length = I.length + (eraseAll g I).length := by
    have := hkeysperm.length_eq
    rw [length_keys, List.length_append, length_keys] at this
    omega
  obtain ⟨ps', hlen', hperm', hsz', hpage'⟩ :=
    pages_fill m padded I hszpad
      (by
        rw [hflatlen, hpadlen]
        have h1 : g.length ≤ ceilDiv g.length m * m := le_ceilDiv_mul hm
        have h2 : ceilDiv g.length m ≤ Q := Nat.le_max_right _ _
        have h3 : ceilDiv g.length m * m ≤ Q * m := Nat.mul_le_mul_right m h2
        rw [Nat.mul_comm]
        omega)
      (by
        have h1 : List.Perm (padded.flatten ++ I) (keys (eraseAll g I) ++ I) :=
          List.Perm.append_right I hpermpad
        have h2 : List.Perm (keys (eraseAll g I) ++ I) (keys g) :=
          (List.perm_append_comm).trans hkeysperm.symm
        exact ((h1.trans h2).symm.nodup_iff).1 hnd)
  refine ⟨ps', ⟨?_, hsz', ?_⟩, by rw [hlen', hpadlen]⟩
  · refine hperm'.trans ?_
    have h1 : List.Perm (padded.flatten ++ I) (keys (eraseAll g I) ++ I) :=
      List.Perm.append_right I hpermpad
    exact h1.trans ((List.perm_append_comm).trans hkeysperm.symm)
  · intro u v he hv
    have hvI : v ∉ I := by
      intro hvI
      exact (mem_roots_iff.1 (isolated_subset_roots g v hvI)).2 ⟨u, he⟩
    have huI : u ∉ I := by
      intro huI
      have hsucc : succsOf g u = [] := (mem_isolated_iff.1 huI).2
      rcases he with ⟨p, hp, hpu, hpv⟩
      have : succsOf g u = p.2 := by rw [← hpu]; exact succsOf_eq_of_mem hnd hp
      rw [hsucc] at this
      rw [← this] at hpv
      exact absurd hpv (List.not_mem_nil v)
    have he' : Edge (eraseAll g I) u v := edge_eraseAll_iff.2 ⟨he, huI⟩
    have hv' : v ∈ keys (eraseAll g I) := mem_keys_eraseAll.2 ⟨hv, hvI⟩
    have hu' : u ∈ keys (eraseAll g I) :=
      mem_keys_eraseAll.2 ⟨edge_source_mem he, huI⟩
    have humem : u ∈ padded.flatten := hpermpad.mem_iff.2 hu'
    have hvmem : v ∈ padded.flatten := hpermpad.mem_iff.2 hv'
    rw [hpage' u humem, hpage' v hvmem]
    exact hedgepad u v he' hv'

/-! ### The main optimality invariant of the solver -/

theorem sched_ne_nil {g : Graph} {m : Nat} {pages : List (List Nat)}
    (hg : g.length ≠ 0) (h : Sched g m pages) : pages ≠ [] := by
  intro hnil
  subst hnil
  have := h.1.length_eq
  rw [length_keys] at this
  simp at this
  omega

/-- A nodup subset of size `≤ m` of a nodup list longer than `m` can be
extended inside the list to a nodup subset of size exactly `m`. -/
theorem exists_extension {ready p0 : List Nat} (m : Nat) (hnd : ready.Nodup)
    (hp0 : p0.Nodup) (hsub : ∀ x ∈ p0, x ∈ ready) (hlen : p0.length ≤ m)
    (hbig : m < ready.length) :
    ∃ C : List Nat, C.Nodup ∧ (∀ x ∈ C, x ∈ ready) ∧ C.length = m ∧
      ∀ x ∈ p0, x ∈ C := by
  set rest := ready.filter (fun x => x ∉ p0) with hrest
  have hfil1 : List.Perm (ready.filter (fun x => decide (x ∈ p0))) p0 := by
    apply List.perm_of_nodup_nodup_toFinset_eq (hnd.filter _) hp0
    ext x
    simp only [List.mem_toFinset, List.mem_filter, decide_eq_true_eq]
    exact ⟨fun h => h.2, fun h => ⟨hsub x h, h⟩⟩
  have hsplitperm : List.Perm
      (ready.filter (fun x => decide (x ∈ p0)) ++ rest) ready := by
    have heq : ready.filter (fun x => !(decide (x ∈ p0))) = rest := by
      apply List.filter_congr
      intro x _
      by_cases hx : x ∈ p0 <;> simp [hx]
    have := List.filter_append_perm (fun x => decide (x ∈ p0)) ready
    rwa [heq] at this
  have hrestlen : p0.length + rest.length = ready.length := by
    have h1 := hsplitperm.length_eq
    rw [List.length_append, hfil1.length_eq] at h1
    exact h1
  have hk : m - p0.length ≤ rest.length := by omega
  refine ⟨p0 ++ rest.take (m - p0.length), ?_, ?_, ?_, ?_⟩
  · rw [List.nodup_append]
    refine ⟨hp0, ((List.take_sublist _ _).nodup (hnd.filter _)), ?_⟩
    intro x hxp0 hxtake
    have : x ∈ rest := List.take_subset _ _ hxtake
    rcases List.mem_filter.1 this with ⟨-, hnot⟩
    simp only [decide_eq_true_eq] at hnot
    exact hnot hxp0
  · intro x hx
    rcases List.mem_append.1 hx with hx | hx
    · exact hsub x hx
    · exact List.mem_of_mem_filter (List.take_subset _ _ hx)
  · rw [List.length_append, List.length_take]
    omega
  · intro x hx
    exact List.mem_append.2 (Or.inl hx)

/-- Main invariant: on an acyclic graph with unique keys and `m ≥ 1`,
`min_page_feasible` run with fuel `|V| + 1` returns a value, and that
value is the minimum page count over all valid schedules. -/
theorem minPages_opt :
    ∀ N : Nat, ∀ g : Graph, ∀ m : Nat, g.length ≤ N → (keys g).Nodup →
      Acyclic g → 1 ≤ m →
      ∃ r, min_page_feasibleF (g.length + 1) g m = some r ∧ SchedOpt g m r := by
  intro N
  induction N with
  | zero =>
    intro g m hlen _ _ _
    have hg : g.length = 0 := by omega
    have hgnil : g = [] := length_eq_zero_iff_nil.1 hg
    refine ⟨0, mpfF_empty _ _ _ hg, ⟨[], by rw [hgnil]; exact sched_nil m, rfl⟩, ?_⟩
    intro pages _
    exact Nat.zero_le _
  | succ N ih =>
    intro g m hlen hnd hac hm
    by_cases hg : g.length = 0
    · have hgnil : g = [] := length_eq_zero_iff_nil.1 hg
      refine ⟨0, mpfF_empty _ _ _ hg, ⟨[], by rw [hgnil]; exact sched_nil m, rfl⟩, ?_⟩
      intro pages _
      exact Nat.zero_le _
    · have hgne : g ≠ [] := fun h => hg (by rw [h]; rfl)
      have hm0 : 0 < m := hm
      by_cases hm1 : m = 1
      · subst hm1
        refine ⟨g.length, mpfF_one _ _ hg, ?_, ?_⟩
        · exact exists_singleton_sched g.length g 1 (Nat.le_refl _) hnd hac hm
        · intro pages hpages
          have := sched_length_le hpages
          omega
      · by_cases hiso : isolated_vertices g = []
        · -- no isolated vertices: place roots
          have hready : roots g ≠ [] := roots_ne_nil_of_acyclic hgne hac
          obtain ⟨v1, hv1⟩ := List.exists_mem_of_length_pos (List.length_pos.2 hready)
          by_cases hrle : (roots g).length ≤ m
          · -- case 2: all roots fit on the next page
            have hlt : (eraseAll g (roots g)).length < g.length :=
              length_eraseAll_lt g (roots g) v1 hv1 (roots_subset_keys g v1 hv1)
            obtain ⟨r', hF', hex', hlb'⟩ :=
              ih (eraseAll g (roots g)) m (by omega) (nodup_keys_eraseAll _ hnd)
                (acyclic_eraseAll _ hac) hm
            have hFmono : min_page_feasibleF g.length (eraseAll g (roots g)) m = some r' :=
              mpfF_mono _ _ (by omega) _ _ _ hF'
            refine ⟨1 + r', ?_, ?_, ?_⟩
            · rw [mpfF_allroots g.length g m hg hm1 hiso hrle, hFmono]
              rfl
            · obtain ⟨pages', hs', hplen'⟩ := hex'
              exact ⟨roots g :: pages',
                sched_cons hnd (roots_nodup hnd) (fun v hv => hv) hrle hs',
                by simp only [List.length_cons, hplen']; omega⟩
            · intro pg hpg
              have hne := sched_ne_nil hg hpg
              cases pg with
              | nil => exact absurd rfl hne
              | cons p0 rest =>
                have hp0roots := first_page_subset_roots hpg
                have hres := sched_restrict (roots g) hpg
                rw [List.map_cons] at hres
                have hfilnil : p0.filter (fun x => x ∉ roots g) = [] :=
                  List.filter_eq_nil_iff.2 (fun a ha => by simp [hp0roots a ha])
                rw [hfilnil] at hres
                have hres2 := sched_drop_empty_head hres
                have := hlb' _ hres2
                rw [List.length_map] at this
                simp only [List.length_cons]
                omega
          · -- case 3: combinatorial branch
            have hrgt : m < (roots g).length := Nat.lt_of_not_le hrle
            have hbranch : ∀ C ∈ List.sublistsLen m (roots g),
                ∃ rC, min_page_feasibleF g.length (eraseAll g C) m = some rC ∧
                  SchedOpt (eraseAll g C) m rC := by
              intro C hC
              obtain ⟨hsubl, hClen⟩ := List.mem_sublistsLen.1 hC
              have hCne : C ≠ [] := by
                intro h
                rw [h] at hClen
                simp at hClen
                omega
              obtain ⟨c1, hc1⟩ := List.exists_mem_of_length_pos (List.length_pos.2 hCne)
              have hlt := length_eraseAll_lt g C c1 hc1
                (roots_subset_keys g c1 (hsubl.subset hc1))
              obtain ⟨rC, hFC, hoptC⟩ :=
                ih (eraseAll g C) m (by omega) (nodup_keys_eraseAll _ hnd)
                  (acyclic_eraseAll _ hac) hm
              exact ⟨rC, mpfF_mono _ _ (by omega) _ _ _ hFC, hoptC⟩
            obtain ⟨r, hfold⟩ := foldl_combStep_intro g.length m g _ g.length
              (fun C hC => (hbranch C hC).imp (fun rC h => h.1))
            refine ⟨r, by rw [mpfF_comb g.length g m hg hm1 hiso hrle]; exact hfold,
              ?_, ?_⟩
            · -- a schedule of exactly r pages exists
              rcases foldl_combStep_achieved g.length m g _ _ _ hfold with hr | hr
              · subst hr
                exact exists_singleton_sched g.length g m (Nat.le_refl _) hnd hac hm
              · obtain ⟨C, hC, rc, hFrc, hr⟩ := hr
                obtain ⟨hsubl, hClen⟩ := List.mem_sublistsLen.1 hC
                obtain ⟨rC, hFC, hexC, hlbC⟩ := hbranch C hC
                have hrceq : rc = rC := by
                  rw [hFrc] at hFC
                  exact Option.some.inj hFC
                obtain ⟨pagesC, hsC, hlC⟩ := hexC
                refine ⟨C :: pagesC, ?_, ?_⟩
                · exact sched_cons hnd (hsubl.nodup (roots_nodup hnd))
                    (fun v hv => hsubl.subset hv) (by omega) hsC
                · simp only [List.length_cons]
                  omega
            · -- r is a lower bound on every schedule
              intro pg hpg
              have hne := sched_ne_nil hg hpg
              cases pg with
              | nil => exact absurd rfl hne
              | cons p0 rest =>
                have hp0roots := first_page_subset_roots hpg
                have hflatnd : (p0 :: rest).flatten.Nodup := hnd.perm hpg.1.symm
                have hp0nd : p0.Nodup :=
                  (List.sublist_flatten_of_mem (List.mem_cons_self p0 rest)).nodup hflatnd
                have hp0len : p0.length ≤ m := hpg.2.1 p0 (List.mem_cons_self p0 rest)
                obtain ⟨C0, hC0nd, hC0sub, hC0len, hp0C0⟩ :=
                  exists_extension m (roots_nodup hnd) hp0nd hp0roots hp0len hrgt
                obtain ⟨C', hC'perm, hC'subl⟩ :=
                  List.subperm_of_subset hC0nd hC0sub
                have hC'len : C'.length = m := by
                  rw [hC'perm.length_eq, hC0len]
                have hC'mem : C' ∈ List.sublistsLen m (roots g) :=
                  List.mem_sublistsLen.2 ⟨hC'subl, hC'len⟩
                obtain ⟨-, hall⟩ := foldl_combStep_elim g.length m g _ _ _ hfold
                obtain ⟨rc, hFrc, hrle2⟩ := hall C' hC'mem
                obtain ⟨rC, hFC, hexC, hlbC⟩ := hbranch C' hC'mem
                have hrceq : rc = rC := by
                  rw [hFrc] at hFC
                  exact Option.some.inj hFC
                have herase : eraseAll g C' = eraseAll g C0 :=
                  eraseAll_congr (fun x => hC'perm.mem_iff)
                have hres := sched_restrict C0 hpg
                rw [List.map_cons] at hres
                have hfilnil : p0.filter (fun x => x ∉ C0) = [] :=
                  List.filter_eq_nil_iff.2 (fun a ha => by simp [hp0C0 a ha])
                rw [hfilnil] at hres
                have hres2 := sched_drop_empty_head hres
                rw [← herase] at hres2
                have := hlbC _ hres2
                rw [List.length_map] at this
                simp only [List.length_cons]
                omega
        · -- case 1: remove the isolated vertices
          have hIne : isolated_vertices g ≠ [] := hiso
          obtain ⟨v1, hv1⟩ := List.exists_mem_of_length_pos (List.length_pos.2 hIne)
          have hlt : (eraseAll g (isolated_vertices g)).length < g.length :=
            length_eraseAll_lt g _ v1 hv1
              (roots_subset_keys g v1 (isolated_subset_roots g v1 hv1))
          obtain ⟨r', hF', hex', hlb'⟩ :=
            ih (eraseAll g (isolated_vertices g)) m (by omega)
              (nodup_keys_eraseAll _ hnd) (acyclic_eraseAll _ hac) hm
          have hFmono : min_page_feasibleF g.length (eraseAll g (isolated_vertices g)) m
              = some r' := mpfF_mono _ _ (by omega) _ _ _ hF'
          refine ⟨Max.max r' (ceilDiv g.length m), ?_, ?_, ?_⟩
          · rw [mpfF_iso g.length g m hg hm1 hiso, hFmono]
          · obtain ⟨pages', hs', hplen'⟩ := hex'
            obtain ⟨pages, hsch, hplen⟩ := sched_add_isolated hm0 hnd hs'
            exact ⟨pages, hsch, by rw [hplen, hplen']⟩
          · intro pg hpg
            apply Nat.max_le.2
            constructor
            · have := hlb' _ (sched_restrict (isolated_vertices g) hpg)
              rw [List.length_map] at this
              exact this
            · have := sched_length_le hpg
              exact (ceilDiv_le_iff hm0).2 (by rw [Nat.mul_comm] at this; exact this)

/-! ### Counting edges: the density bound -/

theorem headI_mem {l : List Nat} (h : l ≠ []) : l.headI ∈ l := by
  cases l with
  | nil => exact absurd rfl h
  | cons a t => exact List.mem_cons_self a t

theorem mem_edgeList_iff {g : Graph} {u v : Nat} :
    (u, v) ∈ edgeList g ↔ Edge g u v := by
  unfold edgeList Edge
  simp only [List.mem_flatten, List.mem_map]
  constructor
  · intro ⟨l, ⟨p, hp, hl⟩, hm⟩
    rw [← hl] at hm
    rcases List.mem_map.1 hm with ⟨w, hw, hweq⟩
    have h1 : p.1 = u := congrArg Prod.fst hweq
    have h2 : w = v := congrArg Prod.snd hweq
    exact ⟨p, hp, h1, by rwa [h2] at hw⟩
  · intro ⟨p, hp, hu, hv⟩
    exact ⟨p.2.map (fun w => (p.1, w)), ⟨p, hp, rfl⟩,
      List.mem_map.2 ⟨v, hv, by rw [hu]⟩⟩

theorem edgeList_eraseAll_subset (g : Graph) (vs : List Nat) :
    ∀ e ∈ edgeList (eraseAll g vs), e ∈ edgeList g := by
  intro e he
  obtain ⟨u, v⟩ := e
  exact mem_edgeList_iff.2 ((edge_eraseAll_iff.1 (mem_edgeList_iff.1 he)).1)

theorem numEdges_eraseAll_le (g : Graph) (vs : List Nat) :
    numEdges (eraseAll g vs) ≤ numEdges g := by
  unfold numEdges
  apply List.Subperm.length_le
  apply List.subperm_of_subset (List.nodup_dedup _)
  intro e he
  exact List.mem_dedup.2 (edgeList_eraseAll_subset g vs e (List.mem_dedup.1 he))

/-- With no isolated vertex, every photo is an endpoint of some edge,
so `|V| ≤ 2·|E|`. -/
theorem card_le_two_numEdges {g : Graph} (hnd : (keys g).Nodup)
    (hiso : isolated_vertices g = []) : g.length ≤ 2 * numEdges g := by
  set D := (edgeList g).dedup with hD
  have hsub : ∀ v ∈ keys g, v ∈ D.map Prod.fst ++ D.map Prod.snd := by
    intro v hv
    have hvnotiso : v ∉ isolated_vertices g := by rw [hiso]; exact List.not_mem_nil v
    by_cases hroot : v ∈ roots g
    · -- a root that is not isolated has an outgoing edge
      have hsucc : succsOf g v ≠ [] := by
        intro hcon
        exact hvnotiso (mem_isolated_iff.2 ⟨hroot, hcon⟩)
      rcases mem_keys_iff.1 hv with ⟨p, hp, hpv⟩
      have hpsucc : succsOf g v = p.2 := by rw [← hpv]; exact succsOf_eq_of_mem hnd hp
      have hw : (succsOf g v).headI ∈ p.2 := by
        rw [← hpsucc]; exact headI_mem hsucc
      have : (v, (succsOf g v).headI) ∈ edgeList g :=
        mem_edgeList_iff.2 ⟨p, hp, hpv, hw⟩
      exact List.mem_append.2 (Or.inl
        (List.mem_map.2 ⟨_, List.mem_dedup.2 this, rfl⟩))
    · -- a non-root has an ingoing edge
      have hvt : v ∈ targets g := by
        by_contra hvt
        exact hroot (List.mem_filter.2 ⟨hv, by simpa using hvt⟩)
      rcases mem_targets_iff_edge.1 hvt with ⟨u, hu⟩
      have : (u, v) ∈ edgeList g := mem_edgeList_iff.2 hu
      exact List.mem_append.2 (Or.inr
        (List.mem_map.2 ⟨_, List.mem_dedup.2 this, rfl⟩))
  have hle : (keys g).length ≤ (D.map Prod.fst ++ D.map Prod.snd).length :=
    (List.subperm_of_subset hnd hsub).length_le
  rw [List.length_append, List.length_map, List.length_map] at hle
  have hnum : numEdges g = D.length := by unfold numEdges; rw [← hD]
  rw [← length_keys g, hnum]
  omega

/-- Deleting a set of roots that all have outgoing edges removes at
least that many distinct edges. -/
theorem numEdges_eraseAll_roots {g : Graph} {C : List Nat}
    (hnd : (keys g).Nodup) (hC : C.Nodup) (hsub : ∀ c ∈ C, c ∈ roots g)
    (hout : ∀ c ∈ C, succsOf g c ≠ []) :
    numEdges (eraseAll g C) + C.length ≤ numEdges g := by
  set D := (edgeList g).dedup with hD
  set D' := (edgeList (eraseAll g C)).dedup with hD'
  set CE := C.map (fun c => (c, (succsOf g c).headI)) with hCE
  have hCEnd : CE.Nodup := hC.map (fun a b hab => congrArg Prod.fst hab)
  have hCED : ∀ e ∈ CE, e ∈ D := by
    intro e he
    rcases List.mem_map.1 he with ⟨c, hc, hce⟩
    have hckeys : c ∈ keys g := roots_subset_keys g c (hsub c hc)
    rcases mem_keys_iff.1 hckeys with ⟨p, hp, hpc⟩
    have hpsucc : succsOf g c = p.2 := by rw [← hpc]; exact succsOf_eq_of_mem hnd hp
    have hw : (succsOf g c).headI ∈ p.2 := by
      rw [← hpsucc]; exact headI_mem (hout c hc)
    rw [← hce]
    exact List.mem_dedup.2 (mem_edgeList_iff.2 ⟨p, hp, hpc, hw⟩)
  have hD'D : ∀ e ∈ D', e ∈ D := by
    intro e he
    exact List.mem_dedup.2
      (edgeList_eraseAll_subset g C e (List.mem_dedup.1 he))
  have hdisj : ∀ e ∈ D', e ∉ CE := by
    intro e he hce
    rcases List.mem_map.1 hce with ⟨c, hc, hcee⟩
    have hsrc : Edge (eraseAll g C) e.1 e.2 := by
      have := List.mem_dedup.1 he
      obtain ⟨u, v⟩ := e
      exact mem_edgeList_iff.1 this
    have : e.1 ∉ C := (edge_eraseAll_iff.1 hsrc).2
    rw [← hcee] at this
    exact this hc
  have hnodup : (D' ++ CE).Nodup := by
    rw [List.nodup_append]
    exact ⟨List.nodup_dedup _, hCEnd, fun e he hce => hdisj e he hce⟩
  have hsubapp : ∀ e ∈ D' ++ CE, e ∈ D := by
    intro e he
    rcases List.mem_append.1 he with he | he
    · exact hD'D e he
    · exact hCED e he
  have := (List.subperm_of_subset hnodup hsubapp).length_le
  rw [List.length_append, List.length_map] at this
  have h1 : numEdges g = D.length := by unfold numEdges; rw [← hD]
  have h2 : numEdges (eraseAll g C) = D'.length := by unfold numEdges; rw [← hD']
  omega

/-- The density bound: any acyclic graph admits a schedule with at most
`max (|E| + 1) ⌈|V|/m⌉` pages, for `m ≥ 2`. -/
theorem sched_density :
    ∀ N : Nat, ∀ g : Graph, ∀ m : Nat, g.length ≤ N → (keys g).Nodup →
      Acyclic g → 2 ≤ m →
      ∃ pages, Sched g m pages ∧
        pages.length ≤ Max.max (numEdges g + 1) (ceilDiv g.length m) := by
  intro N
  induction N with
  | zero =>
    intro g m hlen hnd hac hm
    have hgnil : g = [] := length_eq_zero_iff_nil.1 (by omega)
    subst hgnil
    exact ⟨[], sched_nil m, Nat.zero_le _⟩
  | succ N ih =>
    intro g m hlen hnd hac hm
    have hm0 : 0 < m := by omega
    by_cases hg : g.length = 0
    · have hgnil : g = [] := length_eq_zero_iff_nil.1 hg
      subst hgnil
      exact ⟨[], sched_nil m, Nat.zero_le _⟩
    · have hgne : g ≠ [] := fun h => hg (by rw [h]; rfl)
      by_cases hiso : isolated_vertices g = []
      · -- every root has an outgoing edge
        have hready : roots g ≠ [] := roots_ne_nil_of_acyclic hgne hac
        have hout : ∀ c ∈ roots g, succsOf g c ≠ [] := by
          intro c hc hcon
          have : c ∈ isolated_vertices g := mem_isolated_iff.2 ⟨hc, hcon⟩
          rw [hiso] at this
          exact List.not_mem_nil c this
        have hn2E := card_le_two_numEdges hnd hiso
        have hE1 : 1 ≤ numEdges g := by
          obtain ⟨c, hc⟩ := List.exists_mem_of_length_pos (List.length_pos.2 hready)
          have hckeys := roots_subset_keys g c hc
          rcases mem_keys_iff.1 hckeys with ⟨p, hp, hpc⟩
          have hpsucc : succsOf g c = p.2 := by
            rw [← hpc]; exact succsOf_eq_of_mem hnd hp
          have hw : (succsOf g c).headI ∈ p.2 := by
            rw [← hpsucc]; exact headI_mem (hout c hc)
          have hmem : (c, (succsOf g c).headI) ∈ (edgeList g).dedup :=
            List.mem_dedup.2 (mem_edgeList_iff.2 ⟨p, hp, hpc, hw⟩)
          have hpos : (edgeList g).dedup ≠ [] := fun hcon => by
            rw [hcon] at hmem
            exact List.not_mem_nil _ hmem
          have := List.length_pos.2 hpos
          unfold numEdges
          omega
        -- choose the set C of roots to place on the first page
        obtain ⟨C, hCsub, hCnd, hCne, hClem, hCcase⟩ :
            ∃ C : List Nat, (∀ c ∈ C, c ∈ roots g) ∧ C.Nodup ∧ C ≠ [] ∧
              C.length ≤ m ∧ (C.length = m ∨ C = roots g) := by
          by_cases hrm : m ≤ (roots g).length
          · refine ⟨(roots g).take m, ?_, ?_, ?_, ?_, ?_⟩
            · intro c hc; exact List.take_subset _ _ hc
            · exact (List.take_sublist _ _).nodup (roots_nodup hnd)
            · intro hcon
              have := congrArg List.length hcon
              rw [List.length_take] at this
              simp only [List.length_nil] at this
              have hrpos : 0 < (roots g).length := List.length_pos.2 hready
              omega
            · rw [List.length_take]; omega
            · left; rw [List.length_take]; omega
          · exact ⟨roots g, fun c hc => hc, roots_nodup hnd, hready,
              by omega, Or.inr rfl⟩
        have hCkeys : ∀ c ∈ C, c ∈ keys g := fun c hc =>
          roots_subset_keys g c (hCsub c hc)
        obtain ⟨c1, hc1⟩ := List.exists_mem_of_length_pos (List.length_pos.2 hCne)
        have hlt : (eraseAll g C).length < g.length :=
          length_eraseAll_lt g C c1 hc1 (hCkeys c1 hc1)
        obtain ⟨pages2, hs2, hlen2⟩ :=
          ih (eraseAll g C) m (by omega) (nodup_keys_eraseAll _ hnd)
            (acyclic_eraseAll _ hac) hm
        have hn2 : (eraseAll g C).length = g.length - C.length := by
          have := (perm_keys_eraseAll hnd hCnd hCkeys).length_eq
          rw [length_keys, List.length_append, length_keys] at this
          omega
        have hE2 := numEdges_eraseAll_roots hnd hCnd hCsub
          (fun c hc => hout c (hCsub c hc))
        refine ⟨C :: pages2, sched_cons hnd hCnd hCsub hClem hs2, ?_⟩
        rw [List.length_cons]
        have hb1 : numEdges (eraseAll g C) + 1 + 1 ≤ numEdges g + 1 := by
          have hCpos : 1 ≤ C.length := List.length_pos.2 hCne
          omega
        have hb2 : ceilDiv (eraseAll g C).length m + 1 ≤
            Max.max (numEdges g + 1) (ceilDiv g.length m) := by
          rcases hCcase with hCm | hCr
          · -- exactly m photos placed: the ceiling drops by one
            have hCle : C.length ≤ (roots g).length :=
              (List.subperm_of_subset hCnd hCsub).length_le
            have hmn : m ≤ g.length := by
              have h1 : (roots g).length ≤ (keys g).length :=
                List.length_filter_le _ _
              rw [length_keys] at h1
              omega
            have := ceilDiv_sub_self hm0 hmn
            rw [hn2, hCm]
            have hle2 : ceilDiv (g.length - m) m + 1 ≤ ceilDiv g.length m := by omega
            exact Nat.le_trans hle2 (Nat.le_max_right _ _)
          · -- all roots placed (fewer than m): use the edge bound
            have hCpos : 1 ≤ C.length := List.length_pos.2 hCne
            have h2E : 2 * numEdges g ≤ m * numEdges g :=
              Nat.mul_le_mul_right _ hm
            have hceil : ceilDiv (eraseAll g C).length m ≤ numEdges g := by
              apply (ceilDiv_le_iff hm0).2
              rw [hn2]
              rw [Nat.mul_comm]
              omega
            have : ceilDiv (eraseAll g C).length m + 1 ≤ numEdges g + 1 := by omega
            exact Nat.le_trans this (Nat.le_max_left _ _)
        omega
      · -- isolated vertices exist: place them into spare capacity
        have hIne : isolated_vertices g ≠ [] := hiso
        obtain ⟨v1, hv1⟩ := List.exists_mem_of_length_pos (List.length_pos.2 hIne)
        have hlt : (eraseAll g (isolated_vertices g)).length < g.length :=
          length_eraseAll_lt g _ v1 hv1
            (roots_subset_keys g v1 (isolated_subset_roots g v1 hv1))
        obtain ⟨pages', hs', hlen'⟩ :=
          ih (eraseAll g (isolated_vertices g)) m (by omega)
            (nodup_keys_eraseAll _ hnd) (acyclic_eraseAll _ hac) hm
        obtain ⟨pages, hsch, hplen⟩ := sched_add_isolated hm0 hnd hs'
        refine ⟨pages, hsch, ?_⟩
        rw [hplen]
        apply Nat.max_le.2
        constructor
        · refine Nat.le_trans hlen' (Nat.max_le.2 ⟨?_, ?_⟩)
          · have := numEdges_eraseAll_le g (isolated_vertices g)
            exact Nat.le_trans (by omega) (Nat.le_max_left _ _)
          · exact Nat.le_trans (ceilDiv_mono (by omega)) (Nat.le_max_right _ _)
        · exact Nat.le_max_right _ _

/-! ### The graph built by `main`, and the peeling loop's frame -/

/-- Well-formed input: every edge endpoint is a photo identifier in
`[1, n]` (otherwise `graph[u].append(v)` would fault during parsing). -/
def WFInput (n : Nat) (edges : List (Nat × Nat)) : Prop :=
  ∀ e ∈ edges, 1 ≤ e.1 ∧ e.1 ≤ n ∧ 1 ≤ e.2 ∧ e.2 ≤ n

instance (n : Nat) (edges : List (Nat × Nat)) : Decidable (WFInput n edges) :=
  List.decidableBAll _ edges

theorem keys_buildGraph (n : Nat) (edges : List (Nat × Nat)) :
    keys (buildGraph n edges) = (List.range n).map (fun i => i + 1) := by
  suffices h : ∀ es : List (Nat × Nat), ∀ g0 : Graph,
      keys (es.foldl
        (fun g e => g.map (fun p => if p.1 = e.1 then (p.1, p.2 ++ [e.2]) else p))
        g0) = keys g0 by
    have h2 : keys ((List.range n).map (fun i => (i + 1, ([] : List Nat)))) =
        (List.range n).map (fun i => i + 1) := by
      unfold keys
      rw [List.map_map]
      rfl
    exact (h edges _).trans h2
  intro es
  induction es with
  | nil => intro g0; rfl
  | cons e tl ih =>
    intro g0
    rw [List.foldl_cons, ih]
    unfold keys
    rw [List.map_map]
    apply List.map_congr_left
    intro p _
    by_cases hp : p.1 = e.1 <;> simp [hp]

theorem nodup_keys_buildGraph (n : Nat) (edges : List (Nat × Nat)) :
    (keys (buildGraph n edges)).Nodup := by
  rw [keys_buildGraph]
  exact (List.nodup_range n).map (fun a b hab => by omega)

/-- The `while` loop of `is_acyclic` leaves the caller's dict intact
and computes the same value as the pure model. -/
theorem is_acyclic_loop_spec :
    ∀ N : Nat, ∀ s : DictState, s.work.length ≤ N →
      (is_acyclic_loop s).2.arg = s.arg ∧ (is_acyclic_loop s).1 = is_acyclic s.work := by
  intro N
  induction N with
  | zero =>
    intro s hlen
    have h0 : s.work.length = 0 := by omega
    rw [is_acyclic_loop, is_acyclic]
    simp [h0]
  | succ N ih =>
    intro s hlen
    rw [is_acyclic_loop, is_acyclic]
    by_cases h0 : s.work.length = 0
    · simp [h0]
    · by_cases hr : (roots s.work).length = 0
      · simp [h0, hr]
      · simp only [h0, hr, if_false, dif_neg, dite_eq_ite]
        have hlt : (eraseAll s.work (roots s.work)).length < s.work.length := by
          rcases List.exists_mem_of_length_pos (Nat.pos_of_ne_zero hr) with ⟨v, hv⟩
          exact length_eraseAll_lt s.work (roots s.work) v hv
            (roots_subset_keys s.work v hv)
        have hb : (eraseAll s.work (roots s.work)).length ≤ N := by omega
        exact ih ⟨s.arg, eraseAll s.work (roots s.work)⟩ hb

/-- Acyclicity from a strictly increasing measure along the edges
(used to discharge acyclicity at concrete graphs). -/
theorem acyclic_of_increasing {g : Graph}
    (h : ∀ p ∈ g, ∀ v ∈ p.2, p.1 < v) : Acyclic g := by
  intro ⟨v, hv⟩
  have hmono : ∀ a b, Relation.TransGen (Edge g) a b → a < b := by
    intro a b hab
    induction hab with
    | single he =>
      rcases he with ⟨p, hp, hpa, hpb⟩
      rw [← hpa]
      exact h p hp _ hpb
    | tail _ he ih =>
      rcases he with ⟨p, hp, hpa, hpb⟩
      have := h p hp _ hpb
      omega
  exact Nat.lt_irrefl v (hmono v v hv)

theorem succsOf_empty {g : Graph} (hE : ∀ p ∈ g, p.2 = []) (v : Nat) :
    succsOf g v = [] := by
  unfold succsOf
  cases hfind : g.find? (fun p => p.1 = v) with
  | none => rfl
  | some p =>
    have := List.mem_of_find?_eq_some hfind
    simp [hE p this]

instance (g : Graph) : Decidable (Closed g) :=
  List.decidableBAll _ _

/-- `min_page_feasible` on a page capacity of one returns `|V|`
(shared by several claims). -/
theorem min_page_feasible_one (g : Graph) :
    min_page_feasible g 1 = some g.length := by
  by_cases hg : g.length = 0
  · unfold min_page_feasible
    rw [hg]
    exact mpfF_empty 0 g 1 hg
  · unfold min_page_feasible
    exact mpfF_one _ _ hg

theorem ceilDiv_zero_left {m : Nat} (hm : 1 ≤ m) : ceilDiv 0 m = 0 := by
  unfold ceilDiv
  exact Nat.div_eq_of_lt (by omega)

/-! ### The claims -/

/-- C1: for every acyclic graph (a mapping from each photo identifier
to its list of successor photos) and every page capacity `m ≥ 1`,
`min_page_feasible(graph, m)` returns the minimum number of pages over
all placements that assign each photo to exactly one page, put at most
`m` photos on each page, and, for every edge `u → v`, place `u` on a
strictly earlier page than `v`. -/
theorem claim_C1 (g : Graph) (m : Nat) (hnd : (keys g).Nodup)
    (hclosed : Closed g) (hac : Acyclic g) (hm : 1 ≤ m) :
    ∃ r, min_page_feasible g m = some r ∧
      (∃ pages, Placement g m pages ∧ pages.length = r) ∧
      (∀ pages, Placement g m pages → r ≤ pages.length) := by
  obtain ⟨r, hF, hex, hlb⟩ := minPages_opt g.length g m (Nat.le_refl _) hnd hac hm
  refine ⟨r, hF, ?_, ?_⟩
  · obtain ⟨pages, hs, hl⟩ := hex
    exact ⟨pages, (placement_iff_sched hclosed).2 hs, hl⟩
  · intro pages hp
    exact hlb pages ((placement_iff_sched hclosed).1 hp)

theorem claim_C1_witness :
    ∃ r, min_page_feasible [(1, [2]), (2, []), (3, [])] 2 = some r ∧
      (∃ pages, Placement [(1, [2]), (2, []), (3, [])] 2 pages ∧ pages.length = r) ∧
      (∀ pages, Placement [(1, [2]), (2, []), (3, [])] 2 pages → r ≤ pages.length) :=
  claim_C1 [(1, [2]), (2, []), (3, [])] 2 (by decide) (by decide)
    (acyclic_of_increasing (by decide)) (by decide)

/-- C2: `is_acyclic` returns `true` exactly on the cycle-free graphs;
consequently, on a well-formed input with `m ≥ 1`, `main` prints the
literal text `Impossible` exactly when the constraint graph has a
cycle, and prints a single integer otherwise. -/
theorem claim_C2 :
    (∀ g : Graph, is_acyclic g = true ↔ Acyclic g) ∧
    (∀ n : Nat, ∀ m : Int, ∀ edges : List (Nat × Nat), WFInput n edges → 1 ≤ m →
      (main_run n m edges = MainResult.impossible ↔ ¬ Acyclic (buildGraph n edges)) ∧
      (Acyclic (buildGraph n edges) → ∃ r : Nat, main_run n m edges = MainResult.num r)) := by
  constructor
  · intro g
    exact is_acyclic_iff_acyclic
  · intro n m edges hwf hm
    have hm0 : ¬ m ≤ 0 := by omega
    have hnd := nodup_keys_buildGraph n edges
    by_cases hacy : is_acyclic (buildGraph n edges) = true
    · have hac := acyclic_of_is_acyclic hacy
      have hm1 : 1 ≤ m.toNat := by omega
      obtain ⟨r, hF, -⟩ := minPages_opt (buildGraph n edges).length (buildGraph n edges)
        m.toNat (Nat.le_refl _) hnd hac hm1
      have hrun : main_run n m edges = MainResult.num r := by
        unfold main_run
        rw [if_neg hm0]
        simp only [hacy, if_true]
        have hF' : min_page_feasible (buildGraph n edges) m.toNat = some r := hF
        rw [hF']
      constructor
      · rw [hrun]
        constructor
        · intro hcon
          exact absurd hcon (by simp)
        · intro hcon
          exact absurd hac hcon
      · intro _
        exact ⟨r, hrun⟩
    · have hcyc : ¬ Acyclic (buildGraph n edges) := fun hac => by
        rw [is_acyclic_iff_acyclic.2 hac] at hacy
        exact hacy rfl
      have hrun : main_run n m edges = MainResult.impossible := by
        unfold main_run
        rw [if_neg hm0]
        simp only [hacy, Bool.false_eq_true, if_false]
      constructor
      · rw [hrun]
        simp [hcyc]
      · intro hac
        exact absurd hac hcyc

theorem claim_C2_witness :
    (main_run 2 1 [(1, 2)] = MainResult.impossible ↔
      ¬ Acyclic (buildGraph 2 [(1, 2)])) ∧
    (Acyclic (buildGraph 2 [(1, 2)]) →
      ∃ r : Nat, main_run 2 1 [(1, 2)] = MainResult.num r) :=
  claim_C2.2 2 1 [(1, 2)] (by decide) (by decide)

/-- C3, corrected.  The claim also asserts that under the density
condition `|V| ≥ m·(|E|+1)` the result is returned *directly, without
further recursion into the combinatorial branch*; the code has no such
shortcut (it removes isolated vertices and recurses), and the call tree
does reach the combinatorial branch on the graph below, so only the
value part survives: under the density condition the returned value is
exactly `⌈|V|/m⌉`. -/
theorem claim_C3 (g : Graph) (m : Nat) (hnd : (keys g).Nodup) (hac : Acyclic g)
    (hm : 1 ≤ m) (hdense : m * (numEdges g + 1) ≤ g.length) :
    min_page_feasible g m = some (ceilDiv g.length m) := by
  by_cases hm1 : m = 1
  · subst hm1
    rw [ceilDiv_one]
    exact min_page_feasible_one g
  · have hm2 : 2 ≤ m := by omega
    have hm0 : 0 < m := by omega
    obtain ⟨r, hF, hex, hlb⟩ := minPages_opt g.length g m (Nat.le_refl _) hnd hac hm
    obtain ⟨pages, hsch, hplen⟩ := hex
    have hr_ge : ceilDiv g.length m ≤ r := by
      have hle := sched_length_le hsch
      rw [hplen] at hle
      apply (ceilDiv_le_iff hm0).2
      rw [Nat.mul_comm] at hle
      exact hle
    have hEceil : numEdges g + 1 ≤ ceilDiv g.length m := by
      by_contra hcon
      have hcon2 : ceilDiv g.length m ≤ numEdges g := by omega
      have h1 : g.length ≤ numEdges g * m := (ceilDiv_le_iff hm0).1 hcon2
      have h2 : m * (numEdges g + 1) = m * numEdges g + m := by ring
      rw [h2] at hdense
      rw [Nat.mul_comm] at h1
      omega
    obtain ⟨pagesD, hsD, hlenD⟩ := sched_density g.length g m (Nat.le_refl _) hnd hac hm2
    have hmaxeq : Max.max (numEdges g + 1) (ceilDiv g.length m) = ceilDiv g.length m :=
      Nat.max_eq_right hEceil
    have hr_le : r ≤ ceilDiv g.length m := by
      have := hlb pagesD hsD
      omega
    have hreq : r = ceilDiv g.length m := by omega
    rw [← hreq]
    exact hF

theorem claim_C3_witness :
    min_page_feasible
        [(1, [2]), (2, []), (3, [4]), (4, []), (5, [6]), (6, []), (7, []), (8, [])] 2 =
      some (ceilDiv
        ([(1, [2]), (2, []), (3, [4]), (4, []), (5, [6]), (6, []), (7, []), (8, [])] : Graph).length
        2) :=
  claim_C3 [(1, [2]), (2, []), (3, [4]), (4, []), (5, [6]), (6, []), (7, []), (8, [])] 2
    (by decide) (acyclic_of_increasing (by decide)) (by decide) (by decide)

/-- Counterexample to C3 as stated: this graph satisfies the density
condition `|V| ≥ m·(|E|+1)` (8 vertices, 3 distinct edges, m = 2), and
`min_page_feasible` does return `⌈8/2⌉ = 4`, but its call tree reaches
the case-3 combinatorial branch — the result is not obtained directly
without recursion into that branch. -/
theorem claim_C3_counterexample :
    2 * (numEdges [(1, [2]), (2, []), (3, [4]), (4, []), (5, [6]), (6, []), (7, []), (8, [])] + 1) ≤
      ([(1, [2]), (2, []), (3, [4]), (4, []), (5, [6]), (6, []), (7, []), (8, [])] : Graph).length ∧
    comb_branch_reachedF 9
        [(1, [2]), (2, []), (3, [4]), (4, []), (5, [6]), (6, []), (7, []), (8, [])] 2 =
      some true ∧
    min_page_feasible
        [(1, [2]), (2, []), (3, [4]), (4, []), (5, [6]), (6, []), (7, []), (8, [])] 2 =
      some 4 := by
  refine ⟨by decide, by decide, by decide⟩

/-- C4: for a fixed acyclic graph, increasing the page capacity never
increases the returned minimum page count. -/
theorem claim_C4 (g : Graph) (m1 m2 : Nat) (hnd : (keys g).Nodup) (hac : Acyclic g)
    (h1 : 1 ≤ m1) (h12 : m1 ≤ m2) :
    ∃ r1 r2, min_page_feasible g m1 = some r1 ∧
      min_page_feasible g m2 = some r2 ∧ r2 ≤ r1 := by
  obtain ⟨r1, hF1, hex1, -⟩ := minPages_opt g.length g m1 (Nat.le_refl _) hnd hac h1
  obtain ⟨r2, hF2, -, hlb2⟩ :=
    minPages_opt g.length g m2 (Nat.le_refl _) hnd hac (by omega)
  obtain ⟨pages1, hs1, hl1⟩ := hex1
  have hs12 : Sched g m2 pages1 :=
    ⟨hs1.1, fun p hp => Nat.le_trans (hs1.2.1 p hp) h12, hs1.2.2⟩
  exact ⟨r1, r2, hF1, hF2, by rw [← hl1]; exact hlb2 pages1 hs12⟩

theorem claim_C4_witness :
    ∃ r1 r2, min_page_feasible [(1, [2]), (2, []), (3, [])] 1 = some r1 ∧
      min_page_feasible [(1, [2]), (2, []), (3, [])] 2 = some r2 ∧ r2 ≤ r1 :=
  claim_C4 [(1, [2]), (2, []), (3, [])] 1 2 (by decide)
    (acyclic_of_increasing (by decide)) (by decide) (by decide)

/-- C5: on a graph with no edges (every adjacency list empty) and any
`m ≥ 1`, the solver returns `⌈n/m⌉`. -/
theorem claim_C5 (g : Graph) (m : Nat) (hE : ∀ p ∈ g, p.2 = []) (hm : 1 ≤ m) :
    min_page_feasible g m = some (ceilDiv g.length m) := by
  by_cases hg : g.length = 0
  · unfold min_page_feasible
    rw [mpfF_empty _ _ _ hg, hg, ceilDiv_zero_left hm]
  · by_cases hm1 : m = 1
    · subst hm1
      rw [ceilDiv_one]
      exact min_page_feasible_one g
    · have htargets : ∀ v : Nat, v ∉ targets g := by
        intro v hv
        rcases mem_targets_iff.1 hv with ⟨p, hp, hvp⟩
        rw [hE p hp] at hvp
        exact List.not_mem_nil v hvp
      have hroots : roots g = keys g := by
        apply List.filter_eq_self.2
        intro v _
        simpa using htargets v
      have hiso : isolated_vertices g = roots g := by
        apply List.filter_eq_self.2
        intro v _
        simp [succsOf_empty hE]
      have hisone : isolated_vertices g ≠ [] := by
        rw [hiso, hroots]
        intro hcon
        have := congrArg List.length hcon
        rw [length_keys] at this
        simp only [List.length_nil] at this
        omega
      have herase : eraseAll g (isolated_vertices g) = [] := by
        apply List.filter_eq_nil_iff.2
        intro p hp
        have : p.1 ∈ isolated_vertices g := by
          rw [hiso, hroots]
          exact mem_keys_iff.2 ⟨p, hp, rfl⟩
        simp [this]
      unfold min_page_feasible
      rw [mpfF_iso g.length g m hg hm1 hisone, herase]
      have hnil : min_page_feasibleF g.length [] m = some 0 := by
        obtain ⟨k, hk⟩ : ∃ k, g.length = k + 1 := ⟨g.length - 1, by omega⟩
        rw [hk]
        exact mpfF_empty k [] m rfl
      rw [hnil]
      simp

theorem claim_C5_witness :
    min_page_feasible [(1, []), (2, []), (3, [])] 2 =
      some (ceilDiv ([(1, []), (2, []), (3, [])] : Graph).length 2) :=
  claim_C5 [(1, []), (2, []), (3, [])] 2 (by decide) (by decide)

/-- C6: on any acyclic graph with page capacity `m = 1`, the solver
returns exactly the number of vertices. -/
theorem claim_C6 (g : Graph) (hac : Acyclic g) :
    min_page_feasible g 1 = some g.length :=
  min_page_feasible_one g

theorem claim_C6_witness :
    min_page_feasible [(1, [2]), (2, []), (3, [])] 1 =
      some ([(1, [2]), (2, []), (3, [])] : Graph).length :=
  claim_C6 [(1, [2]), (2, []), (3, [])] (acyclic_of_increasing (by decide))

/-- C7: on a parseable, well-formed input, `main` raises its explicit
configuration error exactly for `m ≤ 0` — regardless of the graph, so
before any graph analysis — and for `m ≥ 1` no such error is raised:
the run prints either a number or `Impossible`. -/
theorem claim_C7 (n : Nat) (m : Int) (edges : List (Nat × Nat)) (hwf : WFInput n edges) :
    (m ≤ 0 → main_run n m edges = MainResult.configError m) ∧
    (1 ≤ m → (∀ b : Int, main_run n m edges ≠ MainResult.configError b) ∧
      (main_run n m edges = MainResult.impossible ∨
        ∃ r : Nat, main_run n m edges = MainResult.num r)) := by
  constructor
  · intro hm0
    unfold main_run
    rw [if_pos hm0]
  · intro hm
    have hm0 : ¬ m ≤ 0 := by omega
    have hnd := nodup_keys_buildGraph n edges
    by_cases hacy : is_acyclic (buildGraph n edges) = true
    · have hac := acyclic_of_is_acyclic hacy
      have hm1 : 1 ≤ m.toNat := by omega
      obtain ⟨r, hF, -⟩ := minPages_opt (buildGraph n edges).length (buildGraph n edges)
        m.toNat (Nat.le_refl _) hnd hac hm1
      have hrun : main_run n m edges = MainResult.num r := by
        unfold main_run
        rw [if_neg hm0]
        simp only [hacy, if_true]
        have hF' : min_page_feasible (buildGraph n edges) m.toNat = some r := hF
        rw [hF']
      exact ⟨fun b hcon => by rw [hrun] at hcon; exact MainResult.noConfusion hcon,
        Or.inr ⟨r, hrun⟩⟩
    · have hrun : main_run n m edges = MainResult.impossible := by
        unfold main_run
        rw [if_neg hm0]
        simp only [hacy, Bool.false_eq_true, if_false]
      exact ⟨fun b hcon => by rw [hrun] at hcon; exact MainResult.noConfusion hcon,
        Or.inl hrun⟩

theorem claim_C7_witness :
    main_run 2 (-3) [(1, 2)] = MainResult.configError (-3) :=
  (claim_C7 2 (-3) [(1, 2)] (by decide)).1 (by decide)

/-- C8: `roots` returns exactly the keys that are the target of no
edge whose source is a current key (edges to non-key identifiers are
ignored, since only keys can enter the result), and no edge joins two
distinct roots in either direction. -/
theorem claim_C8 (g : Graph) :
    (∀ v : Nat, v ∈ roots g ↔ v ∈ keys g ∧ ∀ u ∈ keys g, ¬ Edge g u v) ∧
    (∀ u v : Nat, u ∈ roots g → v ∈ roots g → u ≠ v →
      ¬ Edge g u v ∧ ¬ Edge g v u) := by
  have hmem : ∀ v : Nat, v ∈ roots g ↔ v ∈ keys g ∧ ∀ u ∈ keys g, ¬ Edge g u v := by
    intro v
    rw [mem_roots_iff]
    apply and_congr_right
    intro _
    constructor
    · intro hne u _ hu
      exact hne ⟨u, hu⟩
    · intro hall ⟨u, hu⟩
      exact hall u (edge_source_mem hu) hu
  refine ⟨hmem, ?_⟩
  intro u v hu hv _
  constructor
  · intro he
    exact ((hmem v).1 hv).2 u (edge_source_mem he) he
  · intro he
    exact ((hmem u).1 hu).2 v (edge_source_mem he) he

theorem claim_C8_witness :
    ¬ Edge [(1, [2]), (2, []), (3, [])] 1 3 ∧
    ¬ Edge [(1, [2]), (2, []), (3, [])] 3 1 :=
  (claim_C8 [(1, [2]), (2, []), (3, [])]).2 1 3 (by decide) (by decide) (by decide)

/-- C9: on an acyclic graph with `m ≥ 1` the solver terminates within
recursion depth `|V|`: running it with fuel `|V| + 1` (one unit per
nested call, so the initial call plus at most `|V|` recursive levels)
produces a value, because every recursive call is made on a strictly
smaller graph. -/
theorem claim_C9 (g : Graph) (m : Nat) (hnd : (keys g).Nodup) (hac : Acyclic g)
    (hm : 1 ≤ m) :
    ∃ r : Nat, min_page_feasibleF (g.length + 1) g m = some r := by
  obtain ⟨r, hF, -⟩ := minPages_opt g.length g m (Nat.le_refl _) hnd hac hm
  exact ⟨r, hF⟩

theorem claim_C9_witness :
    ∃ r : Nat, min_page_feasibleF
      (([(1, [2]), (2, []), (3, [])] : Graph).length + 1)
      [(1, [2]), (2, []), (3, [])] 2 = some r :=
  claim_C9 [(1, [2]), (2, []), (3, [])] 2 (by decide)
    (acyclic_of_increasing (by decide)) (by decide)

/-- C10: `is_acyclic` leaves its argument dict untouched — only the
working copy is mutated — so the value it returns is the pure function
of the argument, and in `main` the solver afterwards runs on the graph
exactly as built. -/
theorem claim_C10 (graph : Graph) :
    (is_acyclic_st graph).2.arg = graph ∧
    (is_acyclic_st graph).1 = is_acyclic graph := by
  unfold is_acyclic_st
  exact is_acyclic_loop_spec graph.length ⟨graph, graph⟩ (Nat.le_refl _)

end PhotoOrdering
